import Mathlib

/-!
# A verification development for the FastCGI client (package fastcgi)

The Go sources record.go, request.go, client.go and main.go are embedded
shallowly: byte slices and Go strings are lists of naturals (one natural per
byte), unsigned machine integers are naturals reduced modulo 2^w at the places
where the Go code converts or serialises them, readers are the list of bytes
still unread, and the transport written to is the list of bytes handed to it.
-/

namespace Fastcgi

/-- A byte slice (also a Go string, seen as its bytes): one natural per byte. -/
abbrev Bytes := List Nat

/-! ## Constants -/

/-- Modelled from the spec: the constant maxWrite is declared outside the files
at hand; the comment above EncodeBody and the spec give the largest content
length of one record as 65535 bytes. -/
def maxWrite : Nat := 65535

/-- Modelled from the spec: the constant maxPad (size of the zero buffer pad) is
declared outside the files at hand; the padding length is an 8-bit field, so
the buffer holds 255 bytes. -/
def maxPad : Nat := 255

/-- Modelled from the spec: the type FCGIRecordType is declared outside the
files at hand; the wire format table gives the record type one byte, so its
values are the naturals below 256. -/
abbrev FCGIRecordType := Nat

/-- Modelled from the spec: record type BEGIN_REQUEST=1 of the wire format table. -/
def FCGI_BEGIN_REQUEST : FCGIRecordType := 1

/-- Modelled from the spec: record type END_REQUEST=3 of the wire format table. -/
def FCGI_END_REQUEST : FCGIRecordType := 3

/-- Modelled from the spec: record type PARAMS=4 of the wire format table. -/
def FCGI_PARAMS : FCGIRecordType := 4

/-- Modelled from the spec: record type STDIN=5 of the wire format table. -/
def FCGI_STDIN : FCGIRecordType := 5

/-- Modelled from the spec: record type STDOUT=6 of the wire format table. -/
def FCGI_STDOUT : FCGIRecordType := 6

/-- Modelled from the spec: record type STDERR=7 of the wire format table. -/
def FCGI_STDERR : FCGIRecordType := 7

/-- Modelled from the spec: role value 1, the responder role. -/
def FCGI_RESPONDER : Nat := 1

/-! ## record.go -/

/-- The struct Header of record.go. Version, PaddingLength and Reserved are
uint8, Id and ContentLength are uint16; RecType is the field Type (a reserved
word here). -/
structure Header where
  Version : Nat
  RecType : FCGIRecordType
  Id : Nat
  ContentLength : Nat
  PaddingLength : Nat
  Reserved : Nat
deriving DecidableEq, Repr

/-- The value ranges that the Go field types of Header enforce. -/
def Header.inRange (h : Header) : Prop :=
  h.Version < 256 ∧ h.RecType < 256 ∧ h.Id < 65536 ∧ h.ContentLength < 65536 ∧
    h.PaddingLength < 256 ∧ h.Reserved < 256

instance (h : Header) : Decidable h.inRange := by
  unfold Header.inRange
  infer_instance

/-- The struct Record of record.go (the field ReadBuffer is never read or
written by the code and is left out). -/
structure Record where
  Header : Header
  Content : Bytes
deriving DecidableEq, Repr

/-- A record as the wire format describes it: header fields in the range of
their types and a content length field that equals the length of Content. -/
def Record.wellFormed (r : Record) : Prop :=
  r.Header.inRange ∧ r.Header.ContentLength = r.Content.length

instance (r : Record) : Decidable r.wellFormed := by
  unfold Record.wellFormed
  infer_instance

/-- The global pad of record.go: maxPad zero bytes. -/
def pad : Bytes := List.replicate maxPad 0

/-- The two bytes binary.BigEndian gives a uint16. -/
def putUint16 (n : Nat) : Bytes := [n / 256 % 256, n % 256]

/-- The four bytes binary.BigEndian.PutUint32 gives a uint32. -/
def putUint32 (n : Nat) : Bytes :=
  [n / 16777216 % 256, n / 65536 % 256, n / 256 % 256, n % 256]

/-- What binary.Write(&buf, binary.BigEndian, r.Header) appends: the six fields
in declaration order, fixed width, big endian. -/
def Header.encode (h : Header) : Bytes :=
  [h.Version % 256, h.RecType % 256] ++ putUint16 h.Id ++ putUint16 h.ContentLength ++
    [h.PaddingLength % 256, h.Reserved % 256]

/-- Record.toBytes of record.go: header, then Content, then pad[:PaddingLength].
The three writes go to a bytes.Buffer and cannot fail, and PaddingLength is a
uint8, so the slice of pad is always in range. -/
def Record.toBytes (r : Record) : Bytes :=
  r.Header.encode ++ r.Content ++ pad.take r.Header.PaddingLength

/-- FCGIRequest.NewRecord of record.go, for a request with identifier reqId:
ContentLength is uint16(len(content)). -/
def NewRecord (reqId : Nat) (t : FCGIRecordType) (content : Bytes) : Record :=
  { Header :=
      { Version := 1, RecType := t, Id := reqId,
        ContentLength := content.length % 65536, PaddingLength := 0, Reserved := 0 },
    Content := content }

/-- FCGIRequest.NewBeginRequestRecord of record.go. -/
def NewBeginRequestRecord (reqId : Nat) : Record :=
  let role := FCGI_RESPONDER % 65536
  let flags := 0
  NewRecord reqId FCGI_BEGIN_REQUEST [role / 256 % 256, role % 256, flags, 0, 0, 0, 0, 0]

/-! ## client.go: reading records -/

/-- The errors of package io that a short read gives. -/
inductive ReadErr where
  | EOF
  | ErrUnexpectedEOF
deriving DecidableEq, Repr

/-- The function io.ReadFull(r, buf) with len(buf) = n on a reader that still
holds s and then ends: n bytes, or every byte left is consumed and the error
is EOF (nothing was read) or ErrUnexpectedEOF. -/
def readFull (n : Nat) (s : Bytes) : Except ReadErr Bytes × Bytes :=
  if n ≤ s.length then (.ok (s.take n), s.drop n)
  else if s = [] then (.error .EOF, [])
  else (.error .ErrUnexpectedEOF, [])

/-- The call binary.Read(r, binary.BigEndian, &x) for a one-byte x that starts
as zero, its error dropped. binary.Read fills a one-byte buffer with
io.ReadFull and sets x only when that succeeds: on an empty reader x keeps
zero. -/
def readUint8 (s : Bytes) : Nat × Bytes :=
  match s with
  | b :: rest => (b, rest)
  | [] => (0, [])

/-- The call binary.Read(r, binary.BigEndian, &x) for a uint16 x that starts as
zero, its error dropped. binary.Read fills a two-byte buffer with io.ReadFull
and sets x only when that succeeds: on a reader with fewer than two bytes the
bytes left are consumed and x keeps zero. -/
def readUint16 (s : Bytes) : Nat × Bytes :=
  match s with
  | hi :: lo :: rest => (hi * 256 + lo, rest)
  | _ => (0, [])

/-- The function readRecord of client.go on a reader holding s: the result and
the bytes left unread. -/
def readRecord (s : Bytes) : Except ReadErr Record × Bytes :=
  let (version, s) := readUint8 s
  let (recType, s) := readUint8 s
  let (id, s) := readUint16 s
  let (contentlength, s) := readUint16 s
  let (paddinglength, s) := readUint8 s
  let (reserved, s) := readUint8 s
  let readLength := contentlength + paddinglength
  match readFull readLength s with
  | (.error e, s) => (.error e, s)
  | (.ok content, s) =>
    (.ok
      { Header :=
          { Version := version, RecType := recType, Id := id,
            ContentLength := contentlength, PaddingLength := paddinglength,
            Reserved := reserved },
        Content := content.take contentlength }, s)

/-! ## request.go -/

/-- The loop of EncodeBody that cuts req.Body into chunks: while the buffer is
not empty, read min(len, maxWrite) bytes off its front. Every turn removes at
least one byte, so len(body) turns are enough; the first argument counts the
turns still allowed. -/
def EncodeBody.chunks : Nat → Bytes → List Bytes
  | 0, _ => []
  | fuel + 1, body =>
    if body.length > 0 then
      let readSize := min body.length maxWrite
      body.take readSize :: EncodeBody.chunks fuel (body.drop readSize)
    else []

/-- FCGIRequest.EncodeBody of request.go, for a request with identifier reqId
and body buffer body: one STDIN record per chunk. -/
def EncodeBody (reqId : Nat) (body : Bytes) : List Record :=
  (EncodeBody.chunks body.length body).map (NewRecord reqId FCGI_STDIN)

/-- The size field EncodeContext writes for a length n: for n > 127 the four
big-endian bytes of uint32(n) with bit 31 set, otherwise the byte byte(n). -/
def EncodeContext.size (n : Nat) : Bytes :=
  if n > 127 then putUint32 ((n % 4294967296) ||| 2147483648) else [n % 256]

/-- The body of the loop of EncodeContext for one pair (k, v): the record
appended, or none when the slice v[:valMaxLength] is out of range and the Go
runtime panics. -/
def EncodeContext.pair (reqId : Nat) (k v : Bytes) : Option Record :=
  let vt : Option Bytes :=
    if 8 + k.length + v.length > maxWrite then
      let valMaxLength : Int := (maxWrite : Int) - 8 - (k.length : Int)
      if valMaxLength < 0 ∨ valMaxLength > (v.length : Int) then none
      else some (v.take valMaxLength.toNat)
    else some v
  match vt with
  | none => none
  | some v =>
    some (NewRecord reqId FCGI_PARAMS
      (EncodeContext.size k.length ++ EncodeContext.size v.length ++ k ++ v))

/-- FCGIRequest.EncodeContext of request.go, for a request with identifier
reqId; ctx lists the entries of the map req.Context in the order in which the
range loop visits them. The result is none when the loop panics. -/
def EncodeContext (reqId : Nat) : List (Bytes × Bytes) → Option (List Record)
  | [] => some []
  | (k, v) :: rest =>
    match EncodeContext.pair reqId k v with
    | none => none
    | some r =>
      match EncodeContext reqId rest with
      | none => none
      | some rs => some (r :: rs)

/-- The size field as the spec words it: the single byte n when n ≤ 127, and
otherwise the four big-endian bytes of n + 2^31. -/
def sizeField (n : Nat) : Bytes :=
  if n ≤ 127 then [n] else putUint32 (n + 2147483648)

/-- A reference decoder of one size field, after the name/value format of the
spec: a first byte with its top bit clear is the length itself; otherwise the
length is the big-endian value of four bytes with the top bit cleared. The
result is the length and the bytes after the field. -/
def decodeSize : Bytes → Option (Nat × Bytes)
  | [] => none
  | b0 :: s =>
    if b0 < 128 then some (b0, s)
    else
      match s with
      | b1 :: b2 :: b3 :: s =>
        some ((b0 * 16777216 + b1 * 65536 + b2 * 256 + b3) % 2147483648, s)
      | _ => none

/-- A reference decoder of one name/value block: both size fields, then the
name and the value; the result also holds the bytes left after the pair. -/
def decodePair (c : Bytes) : Option (Bytes × Bytes × Bytes) :=
  match decodeSize c with
  | none => none
  | some (nk, s) =>
    match decodeSize s with
    | none => none
    | some (nv, s) =>
      if nk + nv ≤ s.length then some (s.take nk, (s.drop nk).take nv, (s.drop nk).drop nv)
      else none
/-! ## client.go: writing and the response loop -/

/-- FCGIClient.writeRecord of client.go. The client is seen through the bytes
that have been handed to client.rwc.Write so far; the call appends the
encoding of r (the value Write returns is dropped by every caller). -/
def writeRecord (written : Bytes) (r : Record) : Bytes :=
  written ++ r.toBytes

/-- FCGIClient.writeStream of client.go for a request with identifier reqId:
nothing for an empty slice; otherwise every record in order and then
NewRecord(records[0].Header.Type, nil). -/
def writeStream (written : Bytes) (reqId : Nat) (records : List Record) : Bytes :=
  match records with
  | [] => written
  | first :: _ =>
    let written := records.foldl writeRecord written
    let endRec := NewRecord reqId first.Header.RecType []
    writeRecord written endRec

/-- How a run of readResponse ends. -/
inductive Outcome where
  /-- The loop left through break: the buffer returned and the bytes of the
  reader that were not read. -/
  | returned (response : Bytes) (unread : Bytes)
  /-- The read failed, so r is nil and r.Header dereferences a nil pointer. -/
  | panicked (response : Bytes)
  /-- The loop was still running after the allowed number of turns. -/
  | running (response : Bytes) (unread : Bytes)
deriving DecidableEq, Repr

/-- The loop of FCGIClient.readResponse: the first argument bounds the number
of turns, response is the buffer so far, s the bytes the transport still
holds. -/
def readResponse.loop : Nat → Bytes → Bytes → Outcome
  | 0, response, s => .running response s
  | fuel + 1, response, s =>
    match readRecord s with
    | (.error _, _) => .panicked response
    | (.ok r, s) =>
      if r.Header.RecType = FCGI_END_REQUEST then .returned response s
      else readResponse.loop fuel (response ++ r.Content) s

/-- FCGIClient.readResponse of client.go on a transport that holds s, run for
at most fuel turns of its loop. -/
def readResponse (fuel : Nat) (s : Bytes) : Outcome :=
  readResponse.loop fuel [] s
/-! ## client.go: parseHttp

parseHttp calls into the Go standard library (bufio, net/textproto, strconv,
net/http). The functions it uses are modelled here after their documented
behaviour on a reader over an in-memory byte slice, on a 64-bit platform. -/

/-- The bytes of an ASCII string literal. -/
def ascii (s : String) : Bytes := s.toList.map Char.toNat

/-- The function strings.IndexByte: the index of the first c in s, if any. -/
def indexByte (s : Bytes) (c : Nat) : Option Nat :=
  match s with
  | [] => none
  | b :: rest =>
    if b = c then some 0
    else
      match indexByte rest c with
      | none => none
      | some i => some (i + 1)

/-- The function bytes.Cut: the parts of s before and after the first c. -/
def cut (s : Bytes) (c : Nat) : Option (Bytes × Bytes) :=
  match s with
  | [] => none
  | b :: rest =>
    if b = c then some ([], rest)
    else
      match cut rest c with
      | none => none
      | some (before, after) => some (b :: before, after)

/-- Space or horizontal tab. -/
def isSpaceTab (b : Nat) : Bool := b == 32 || b == 9

/-- The function trim of net/textproto: leading and trailing spaces and tabs
removed. -/
def trim (s : Bytes) : Bytes :=
  (s.dropWhile isSpaceTab).rdropWhile isSpaceTab

/-- The last line of a reader that ends without a line feed, as bufio hands it
out through a buffer of 4096 bytes: ReadLine returns full buffers as pieces (a
carriage return that ends a piece is put back) and the line is complete once a
piece comes with fewer than 4096 bytes; when nothing is left after a full
piece the read reports EOF. The result says whether the line is returned. -/
def ReadLine.lastLine : Nat → Bytes → Bool
  | 0, _ => false
  | fuel + 1, s =>
    if s.length = 0 then false
    else if s.length < 4096 then true
    else if s.get? 4095 = some 13 then ReadLine.lastLine fuel (s.drop 4095)
    else ReadLine.lastLine fuel (s.drop 4096)

/-- The line a reader yields whose text up to the line feed is l: the line
feed is dropped and with it one carriage return right before it. -/
def dropCR (l : Bytes) : Bytes :=
  if l.getLast? = some 13 then l.dropLast else l

/-- The method textproto.Reader.ReadLine (and readLineSlice) on a reader that
holds s: the bytes up to the first line feed, without the line feed and a
carriage return before it, and the bytes after it; without a line feed the
rest of the reader is the line, and EOF is reported on an empty reader. -/
def ReadLine (s : Bytes) : Except ReadErr Bytes × Bytes :=
  match cut s 10 with
  | some (l, rest) => (.ok (dropCR l), rest)
  | none =>
    if ReadLine.lastLine s.length s then (.ok s, []) else (.error .EOF, [])

/-- The strings that name a badStringError of main.go. -/
inductive What where
  | malformedHTTPResponse
  | malformedHTTPStatusCode
  | malformedHTTPVersion
deriving DecidableEq, Repr

/-- The errors parseHttp can return: io.ErrUnexpectedEOF and io.EOF, a
badStringError of main.go, the textproto.ProtocolError values of
ReadMIMEHeader, each with the text it quotes; outOfTurns marks a loop of the
model that was cut short. -/
inductive ParseErr where
  | EOF
  | ErrUnexpectedEOF
  | badStringError (what : What) (str : Bytes)
  | malformedInitialLine (line : Bytes)
  | missingColon (line : Bytes)
  | malformedHeaderLine (line : Bytes)
  | outOfTurns
deriving DecidableEq, Repr

/-- An error of package io seen as an error of parseHttp. -/
def ParseErr.ofRead : ReadErr → ParseErr
  | .EOF => .EOF
  | .ErrUnexpectedEOF => .ErrUnexpectedEOF

/-- The function validHeaderFieldByte of net/textproto: the token characters of
RFC 7230, that is digits, letters and the marks ! # $ % & (39) * + - . ^ _
(96) | ~. -/
def validHeaderFieldByte (c : Nat) : Bool :=
  (48 ≤ c && c ≤ 57) || (97 ≤ c && c ≤ 122) || (65 ≤ c && c ≤ 90) ||
    c == 33 || c == 35 || c == 36 || c == 37 || c == 38 || c == 39 || c == 42 ||
    c == 43 || c == 45 || c == 46 || c == 94 || c == 95 || c == 96 || c == 124 || c == 126

/-- The function validHeaderValueByte of net/textproto: horizontal tab, space,
the visible ASCII characters and every byte from 128 on. -/
def validHeaderValueByte (c : Nat) : Bool :=
  c == 9 || (32 ≤ c && c ≤ 126) || 128 ≤ c

/-- The second loop of canonicalMIMEHeaderKey: a letter is made upper case at
the start and after a dash and lower case elsewhere. -/
def canonicalMIMEHeaderKey.fix : Bool → Bytes → Bytes
  | _, [] => []
  | upper, c :: rest =>
    let c :=
      if upper && 97 ≤ c && c ≤ 122 then c - 32
      else if !upper && 65 ≤ c && c ≤ 90 then c + 32
      else c
    c :: canonicalMIMEHeaderKey.fix (c == 45) rest

/-- The function canonicalMIMEHeaderKey of net/textproto: the key and whether
it is acceptable. An empty key and a key with a byte that is neither a token
character nor a space are refused; a key with a space is accepted as it is;
any other key is put in canonical form. -/
def canonicalMIMEHeaderKey (a : Bytes) : Bytes × Bool :=
  if a.length = 0 then ([], false)
  else if a.any (fun c => !validHeaderFieldByte c && c != 32) then (a, false)
  else if a.any (fun c => c == 32) then (a, true)
  else (canonicalMIMEHeaderKey.fix true a, true)

/-- The type textproto.MIMEHeader (and http.Header), a map from keys to lists
of values, as an association list with one entry per key. -/
abbrev MIMEHeader := List (Bytes × List Bytes)

/-- The lookup m[key] of a MIMEHeader: the values of key, nil when absent. -/
def MIMEHeader.values (m : MIMEHeader) (key : Bytes) : List Bytes :=
  match m with
  | [] => []
  | (k, vs) :: rest => if k = key then vs else MIMEHeader.values rest key

/-- The update m[key] = append(m[key], value) of a MIMEHeader. -/
def MIMEHeader.add (m : MIMEHeader) (key value : Bytes) : MIMEHeader :=
  match m with
  | [] => [(key, [value])]
  | (k, vs) :: rest =>
    if k = key then (k, vs ++ [value]) :: rest else (k, vs) :: MIMEHeader.add rest key value

/-- The method Header.Get: the first value of the canonical form of key, or
the empty string. -/
def MIMEHeader.Get (m : MIMEHeader) (key : Bytes) : Bytes :=
  match MIMEHeader.values m (canonicalMIMEHeaderKey key).1 with
  | [] => []
  | v :: _ => v

/-- The loop of readContinuedLineSlice that reads continuation lines: while the
next line starts with spaces or tabs, skip them, append one space and the
trimmed rest of that line to buf. The first argument bounds the turns; every
turn consumes a byte. The result is buf and the bytes left. -/
def readContinuedLineSlice.more : Nat → Bytes → Bytes → Bytes × Bytes
  | 0, buf, s => (buf, s)
  | fuel + 1, buf, s =>
    if (s.takeWhile isSpaceTab).length > 0 then
      match ReadLine (s.dropWhile isSpaceTab) with
      | (.error _, rest) => (buf ++ [32], rest)
      | (.ok line, rest) => readContinuedLineSlice.more fuel (buf ++ [32] ++ trim line) rest
    else (buf, s)

/-- The method readContinuedLineSlice of textproto.Reader with the check
mustHaveFieldNameColon: an empty line is returned as it is, a first line
without a colon is an error, and otherwise the trimmed line is joined with its
continuation lines. -/
def readContinuedLineSlice (s : Bytes) : Except ParseErr Bytes × Bytes :=
  match ReadLine s with
  | (.error e, rest) => (.error (ParseErr.ofRead e), rest)
  | (.ok line, rest) =>
    if line.length = 0 then (.ok line, rest)
    else if indexByte line 58 = none then (.error (.missingColon line), rest)
    else
      match readContinuedLineSlice.more rest.length (trim line) rest with
      | (buf, rest) => (.ok buf, rest)

/-- The loop of readMIMEHeader over the header lines; the first argument bounds
the turns (every turn consumes a line). The limits on memory and on the number
of headers are math.MaxInt64 and are not reached. -/
def ReadMIMEHeader.loop : Nat → MIMEHeader → Bytes → Except ParseErr MIMEHeader × Bytes
  | 0, _, s => (.error .outOfTurns, s)
  | fuel + 1, m, s =>
    match readContinuedLineSlice s with
    | (.error e, rest) => (.error e, rest)
    | (.ok kv, rest) =>
      if kv.length = 0 then (.ok m, rest)
      else
        match cut kv 58 with
        | none => (.error (.malformedHeaderLine kv), rest)
        | some (k, v) =>
          match canonicalMIMEHeaderKey k with
          | (_, false) => (.error (.malformedHeaderLine kv), rest)
          | (key, true) =>
            if !v.all validHeaderValueByte then (.error (.malformedHeaderLine kv), rest)
            else if key = [] then ReadMIMEHeader.loop fuel m rest
            else ReadMIMEHeader.loop fuel (MIMEHeader.add m key (v.dropWhile isSpaceTab)) rest

/-- The method textproto.Reader.ReadMIMEHeader on a reader that holds s: the
header and the bytes left unread, or the error. A first line that starts with
a space or a tab is refused. -/
def ReadMIMEHeader (s : Bytes) : Except ParseErr MIMEHeader × Bytes :=
  match s with
  | b :: _ =>
    if b = 32 ∨ b = 9 then
      match ReadLine s with
      | (.error e, rest) => (.error (ParseErr.ofRead e), rest)
      | (.ok line, rest) => (.error (.malformedInitialLine line), rest)
    else ReadMIMEHeader.loop (s.length + 1) [] s
  | [] => ReadMIMEHeader.loop (s.length + 1) [] s

/-- The value of a string of decimal digits, none when a byte is not a digit
or the string is empty. -/
def digitsValue (s : Bytes) : Option Nat :=
  if s = [] then none
  else s.foldl (fun acc c =>
    match acc with
    | none => none
    | some n => if 48 ≤ c ∧ c ≤ 57 then some (n * 10 + (c - 48)) else none) (some 0)

/-- The function strconv.ParseInt(s, 10, 64), its error reduced to whether there
is one: an optional sign and decimal digits; a syntax error gives 0 and a
value out of range gives the nearest int64. -/
def ParseInt (s : Bytes) : Int × Bool :=
  let neg := s.head? = some 45
  let body := if s.head? = some 45 ∨ s.head? = some 43 then s.drop 1 else s
  match digitsValue body with
  | none => (0, true)
  | some n =>
    if neg then
      if n > 9223372036854775808 then (-9223372036854775808, true) else (-(n : Int), false)
    else
      if n ≥ 9223372036854775808 then (9223372036854775807, true) else ((n : Int), false)

/-- The function strconv.Atoi where int has 64 bits: the same value and error
as ParseInt(s, 10, 0). -/
def Atoi (s : Bytes) : Int × Bool := ParseInt s

/-- The function http.ParseHTTPVersion: major, minor and ok. -/
def ParseHTTPVersion (vers : Bytes) : Int × Int × Bool :=
  if vers = ascii "HTTP/1.1" then (1, 1, true)
  else if vers = ascii "HTTP/1.0" then (1, 0, true)
  else if vers.take 5 ≠ ascii "HTTP/" then (0, 0, false)
  else if vers.length ≠ 8 then (0, 0, false)
  else if vers.get? 6 ≠ some 46 then (0, 0, false)
  else
    match digitsValue ((vers.drop 5).take 1) with
    | none => (0, 0, false)
    | some maj =>
      match digitsValue ((vers.drop 7).take 1) with
      | none => (0, 0, false)
      | some min => ((maj : Int), (min : Int), true)

/-! ### main.go and parseHttp -/

/-- The function chunked of main.go. -/
def chunked (te : List Bytes) : Bool :=
  te.length > 0 && te.head? = some (ascii "chunked")

/-- The Body of the response: io.NopCloser(bf), a reader over the bytes that bf
still holds, or io.NopCloser(httputil.NewChunkedReader(bf)), a chunked
transfer decoder over them. -/
inductive BodyReader where
  | plain (bf : Bytes)
  | chunkedReader (bf : Bytes)
deriving DecidableEq, Repr

/-- The fields of http.Response that parseHttp sets. -/
structure Response where
  Status : Bytes
  StatusCode : Int
  Proto : Bytes
  ProtoMajor : Int
  ProtoMinor : Int
  Header : MIMEHeader
  Body : BodyReader
  ContentLength : Int
  TransferEncoding : List Bytes
deriving DecidableEq, Repr

set_option linter.unusedVariables false in
/-- The function parseHttp of client.go. The variable err is threaded the way
the Go code assigns it: the errors of the status code and version checks are
stored in err, and err is then assigned again by tp.ReadMIMEHeader() before
anything looks at it. -/
def parseHttp (raw : Bytes) : Except ParseErr Response :=
  match ReadLine raw with
  | (.error e, _) =>
    .error (if e = .EOF then .ErrUnexpectedEOF else ParseErr.ofRead e)
  | (.ok line, bf) =>
    match indexByte line 32 with
    | none => .error (.badStringError .malformedHTTPResponse line)
    | some i =>
      let err : Option ParseErr := none
      let Proto := line.take i
      let Status := (line.drop (i + 1)).dropWhile (fun c => c == 32)
      let statusCode :=
        match indexByte Status 32 with
        | some i => Status.take i
        | none => Status
      let err :=
        if statusCode.length ≠ 3 then some (.badStringError .malformedHTTPStatusCode statusCode)
        else err
      let StatusCode := (Atoi statusCode).1
      let err : Option ParseErr :=
        if (Atoi statusCode).2 then some (.badStringError .malformedHTTPStatusCode statusCode)
        else none
      let err :=
        if err ≠ none ∨ StatusCode < 0 then
          some (.badStringError .malformedHTTPStatusCode statusCode)
        else err
      let ProtoMajor := (ParseHTTPVersion Proto).1
      let ProtoMinor := (ParseHTTPVersion Proto).2.1
      let ok := (ParseHTTPVersion Proto).2.2
      let err := if !ok then some (.badStringError .malformedHTTPVersion Proto) else err
      match ReadMIMEHeader bf with
      | (.error err, _) =>
        .error (if err = .EOF then .ErrUnexpectedEOF else err)
      | (.ok mimeHeader, bf) =>
        let Header := mimeHeader
        let TransferEncoding := MIMEHeader.values Header (ascii "Transfer-Encoding")
        let ContentLength := (ParseInt (MIMEHeader.Get Header (ascii "Content-Length"))).1
        let Body :=
          if chunked TransferEncoding then BodyReader.chunkedReader bf else BodyReader.plain bf
        .ok
          { Status := Status, StatusCode := StatusCode, Proto := Proto,
            ProtoMajor := ProtoMajor, ProtoMinor := ProtoMinor, Header := Header,
            Body := Body, ContentLength := ContentLength,
            TransferEncoding := TransferEncoding }
/-! ## The form of a response text -/

/-- One header line of a response text: name, colon, space, value, CR LF. -/
def headerLine (nv : Bytes × Bytes) : Bytes :=
  nv.1 ++ [58, 32] ++ nv.2 ++ [13, 10]

/-- A well-formed header line: the name is a non-empty token, the value holds
only bytes allowed in a header value (so neither CR nor LF) and neither starts
nor ends with a space or a tab. -/
def headerLineOK (nv : Bytes × Bytes) : Prop :=
  nv.1 ≠ [] ∧ nv.1.all validHeaderFieldByte = true ∧ nv.2.all validHeaderValueByte = true ∧
    nv.2.dropWhile isSpaceTab = nv.2 ∧ nv.2.rdropWhile isSpaceTab = nv.2

instance (nv : Bytes × Bytes) : Decidable (headerLineOK nv) := by
  unfold headerLineOK
  infer_instance

/-- The header that a list of header lines stands for: every value is filed, in
order, under the canonical form of its name. -/
def headersOf (headers : List (Bytes × Bytes)) : MIMEHeader :=
  headers.foldl (fun m nv => MIMEHeader.add m (canonicalMIMEHeaderKey nv.1).1 nv.2) []

/-- A response text: status line PROTO SP CODE SP REASON CR LF, the header
lines, an empty line, the body. -/
def responseText (proto code reason : Bytes) (headers : List (Bytes × Bytes))
    (body : Bytes) : Bytes :=
  proto ++ [32] ++ code ++ [32] ++ reason ++ [13, 10]
    ++ (headers.map headerLine).flatten ++ [13, 10] ++ body
/-! ## What the encoders promise about a record -/

/-- A record as the encoders of a request with identifier reqId are meant to
produce it: at most 65535 content bytes, a content length field equal to the
length of Content (so no wrap-around at 16 bits), Version 1, no padding and
the Id of the request. -/
def Record.producedFor (reqId : Nat) (r : Record) : Prop :=
  r.Content.length ≤ 65535 ∧ r.Header.ContentLength = r.Content.length ∧
    r.Header.Version = 1 ∧ r.Header.PaddingLength = 0 ∧ r.Header.Id = reqId

instance (reqId : Nat) (r : Record) : Decidable (r.producedFor reqId) := by
  unfold Record.producedFor
  infer_instance

/-! ## request.go: RequestFromHttp -/

/-- The map req.Context (map[string]string) as an association list with one
entry per key. -/
abbrev Context := List (Bytes × Bytes)

/-- The lookup of a key in the context: its value, none when absent. -/
def Context.get (c : Context) (key : Bytes) : Option Bytes :=
  match c with
  | [] => none
  | (k, v) :: rest => if k = key then some v else Context.get rest key

/-- The assignment c[key] = value. -/
def Context.set (c : Context) (key value : Bytes) : Context :=
  match c with
  | [] => [(key, value)]
  | (k, v) :: rest =>
    if k = key then (k, value) :: rest else (k, v) :: Context.set rest key value

/-- The function strings.ToUpper. On a string of ASCII bytes only (every byte
below 128) the letters a to z become A to Z; on any other string Go returns
strings.Map(unicode.ToUpper, s), which works on runes with the Unicode tables
of the library: that function is the parameter upperRunes. -/
def ToUpper (upperRunes : Bytes → Bytes) (s : Bytes) : Bytes :=
  if s.all (fun c => c < 128) then s.map (fun c => if 97 ≤ c ∧ c ≤ 122 then c - 32 else c)
  else upperRunes s

/-- The function strings.ReplaceAll for a one-byte ASCII old and a one-byte
ASCII new (no byte of a multi-byte rune equals an ASCII byte, so the
replacement can go byte by byte). -/
def ReplaceAll (s : Bytes) (old new : Nat) : Bytes :=
  s.map (fun c => if c = old then new else c)

/-- The function strings.Join. -/
def Join (elems : List Bytes) (sep : Bytes) : Bytes :=
  match elems with
  | [] => []
  | [a] => a
  | a :: rest => a ++ sep ++ Join rest sep

/-- The fields of http.Request that RequestFromHttp reads: Method,
URL.RawQuery, URL.Path, the entries of the map Header in the order in which
the range loop visits them, and what io.ReadAll(r.Body) gives (none when it
fails). -/
structure HttpRequest where
  Method : Bytes
  RawQuery : Bytes
  Path : Bytes
  Header : List (Bytes × List Bytes)
  Body : Option Bytes
deriving DecidableEq, Repr

/-- The struct FCGIRequest of request.go (the field Records is never read or
written by the code and is left out). -/
structure FCGIRequest where
  Id : Nat
  Context : Context
  Body : Bytes
deriving DecidableEq, Repr

/-- The key a header name is filed under: strings.ToUpper of the name with each
dash replaced by an underscore. -/
def envKey (upperRunes : Bytes → Bytes) (name : Bytes) : Bytes :=
  ReplaceAll (ToUpper upperRunes name) 45 95

/-- The body of the range loop of RequestFromHttp for one header: the context
after both assignments. -/
def RequestFromHttp.header (upperRunes : Bytes → Bytes) (c : Context)
    (nameValue : Bytes × List Bytes) : Context :=
  let k := ToUpper upperRunes nameValue.1
  let k := ReplaceAll k 45 95
  let c := c.set k (Join nameValue.2 (ascii ", "))
  c.set (ascii "HTTP_" ++ k) (Join nameValue.2 (ascii ", "))

/-- The function RequestFromHttp of request.go; none when reading the body
fails and the function panics. The parameter upperRunes is the one of
ToUpper. -/
def RequestFromHttp (upperRunes : Bytes → Bytes) (r : HttpRequest) : Option FCGIRequest :=
  let c : Context := []
  let c := c.set (ascii "SERVER_SOFTWARE") (ascii "oasis / fastcgi")
  let c := c.set (ascii "QUERY_STRING") r.RawQuery
  let c := c.set (ascii "REMOTE_ADDR") (ascii "127.0.0.1")
  let c := c.set (ascii "REQUEST_METHOD") r.Method
  let c := c.set (ascii "REQUEST_URI") r.Path
  let c := c.set (ascii "SERVER_ADDR") (ascii "localhost")
  let c := c.set (ascii "SERVER_PORT") (ascii "8000")
  let c := c.set (ascii "SERVER_NAME") (ascii "localhost")
  let c := r.Header.foldl (RequestFromHttp.header upperRunes) c
  match r.Body with
  | none => none
  | some body => some { Id := 1, Context := c, Body := body }

/-- The eight keys that RequestFromHttp sets before it folds in the headers. -/
def fixedKeys : List Bytes :=
  [ascii "SERVER_SOFTWARE", ascii "QUERY_STRING", ascii "REMOTE_ADDR", ascii "REQUEST_METHOD",
    ascii "REQUEST_URI", ascii "SERVER_ADDR", ascii "SERVER_PORT", ascii "SERVER_NAME"]

/-! ## The chunked reader of the response body

httputil.NewChunkedReader(bf) of the Go standard library, read to its end. -/

/-- The errors that end the reading of a body before its end. -/
inductive BodyErr where
  | ErrUnexpectedEOF
  | ErrLineTooLong
  | chunkedLineEndsWithBareLF
  | invalidCRInChunkedLine
  | malformedChunkedEncoding
  | emptyHexNumber
  | invalidByteInChunkLength
  | chunkLengthTooLarge
  | tooMuchNonData
  | outOfTurns
deriving DecidableEq, Repr

/-- The function isASCIISpace of the chunked reader: space, tab, LF, CR. -/
def isASCIISpace (b : Nat) : Bool := b == 32 || b == 9 || b == 10 || b == 13

/-- The function readChunkLine: ReadSlice up to the first line feed (which must
lie within the buffer of 4096 bytes; a reader that ends before a line feed
gives ErrUnexpectedEOF); the line must end in CR LF with no other CR in it;
the result is the line without CR LF, which must be shorter than 4096 bytes,
and the bytes after it. -/
def readChunkLine (s : Bytes) : Except BodyErr Bytes × Bytes :=
  match cut s 10 with
  | none => if 4096 ≤ s.length then (.error .ErrLineTooLong, []) else (.error .ErrUnexpectedEOF, [])
  | some (l, rest) =>
    let p := l ++ [10]
    if 4096 < p.length then (.error .ErrLineTooLong, rest)
    else
      match indexByte p 13 with
      | none => (.error .chunkedLineEndsWithBareLF, rest)
      | some idx =>
        if idx ≠ p.length - 2 then (.error .invalidCRInChunkedLine, rest)
        else if 4096 ≤ (p.take (p.length - 2)).length then (.error .ErrLineTooLong, rest)
        else (.ok (p.take (p.length - 2)), rest)

/-- The value of a hexadecimal digit, none for any other byte. -/
def hexDigit (b : Nat) : Option Nat :=
  if 48 ≤ b ∧ b ≤ 57 then some (b - 48)
  else if 97 ≤ b ∧ b ≤ 102 then some (b - 97 + 10)
  else if 65 ≤ b ∧ b ≤ 70 then some (b - 65 + 10)
  else none

/-- The loop of parseHexUint: i is the index of the next byte and n the value
so far, a uint64 that is shifted left by four bits and or-ed with each digit;
a seventeenth digit is an error. -/
def parseHexUint.go : Nat → Nat → Bytes → Except BodyErr Nat
  | _, n, [] => .ok n
  | i, n, b :: rest =>
    match hexDigit b with
    | none => .error .invalidByteInChunkLength
    | some d =>
      if i = 16 then .error .chunkLengthTooLarge
      else parseHexUint.go (i + 1) ((n * 16 % 18446744073709551616) ||| d) rest

/-- The function parseHexUint of the chunked reader. -/
def parseHexUint (v : Bytes) : Except BodyErr Nat :=
  if v.length = 0 then .error .emptyHexNumber else parseHexUint.go 0 0 v

/-- The function removeChunkExtension: the bytes before the first semicolon. -/
def removeChunkExtension (p : Bytes) : Bytes :=
  match cut p 59 with
  | some (before, _) => before
  | none => p

/-- What beginChunk finds. -/
inductive ChunkHead where
  /-- A chunk of n > 0 bytes follows; excess is the overhead counted so far. -/
  | chunk (n : Nat) (excess : Int) (rest : Bytes)
  /-- The chunk of size zero: the reader is at its end (io.EOF). -/
  | last (rest : Bytes)
  /-- The chunk header is not acceptable. -/
  | failed (e : BodyErr)
deriving DecidableEq, Repr

/-- The method beginChunk of the chunked reader: read the size line, drop a
chunk extension, parse the size; the overhead counter grows by the length of
the line plus two and shrinks by 16 plus twice the size, never below zero, and
more than 16384 of it is an error unless the size is zero. -/
def beginChunk (excess : Int) (s : Bytes) : ChunkHead :=
  match readChunkLine s with
  | (.error e, _) => .failed e
  | (.ok line, rest) =>
    let excess := excess + (line.length : Int) + 2
    let line := line.rdropWhile isASCIISpace
    let line := removeChunkExtension line
    match parseHexUint line with
    | .error e => .failed e
    | .ok n =>
      let excess := excess - (16 + 2 * (n : Int))
      let excess := max excess 0
      if n = 0 then .last rest
      else if excess > 16 * 1024 then .failed .tooMuchNonData
      else .chunk n excess rest

/-- Reading a chunked reader to its end: the data read and the error that cut
the reading short, none when the reader ended with io.EOF after the chunk of
size zero. The first argument bounds the number of chunks (every chunk
consumes a byte); data is what has been read so far. -/
def chunkedReader.readAll : Nat → Bytes → Int → Bytes → Bytes × Option BodyErr
  | 0, data, _, _ => (data, some .outOfTurns)
  | fuel + 1, data, excess, s =>
    match beginChunk excess s with
    | .failed e => (data, some e)
    | .last _ => (data, none)
    | .chunk n excess rest =>
      if rest.length < n then (data ++ rest, some .ErrUnexpectedEOF)
      else
        match rest.drop n with
        | 13 :: 10 :: rest2 => chunkedReader.readAll fuel (data ++ rest.take n) excess rest2
        | [] => (data ++ rest.take n, some .ErrUnexpectedEOF)
        | [_] => (data ++ rest.take n, some .ErrUnexpectedEOF)
        | _ => (data ++ rest.take n, some .malformedChunkedEncoding)

/-- Reading the Body of a response to its end (io.ReadAll): the data and the
error, none for a clean end. -/
def BodyReader.readAll : BodyReader → Bytes × Option BodyErr
  | .plain bf => (bf, none)
  | .chunkedReader bf => chunkedReader.readAll (bf.length + 1) [] 0 bf

/-! ### The form of a chunked body -/

/-- The value of a line of hexadecimal digits, most significant first. -/
def hexValue (line : Bytes) : Nat :=
  line.foldl (fun n b => n * 16 + (hexDigit b).getD 0) 0

/-- A well-formed chunk (size line, data): the size line is one to sixteen
hexadecimal digits whose value is the length of the data, and the data is not
empty. -/
def chunkOK (c : Bytes × Bytes) : Prop :=
  c.1 ≠ [] ∧ c.1.length ≤ 16 ∧ (∀ b ∈ c.1, hexDigit b ≠ none) ∧ hexValue c.1 = c.2.length ∧
    c.2 ≠ []

instance (c : Bytes × Bytes) : Decidable (chunkOK c) := by
  unfold chunkOK
  infer_instance

/-- The bytes of one chunk: size line, CR LF, data, CR LF. -/
def chunkText (c : Bytes × Bytes) : Bytes :=
  c.1 ++ [13, 10] ++ c.2 ++ [13, 10]

/-- A chunked body: the chunks, the chunk of size zero (0 CR LF), and what
follows it (the final CR LF). -/
def chunkedText (chunks : List (Bytes × Bytes)) (trailer : Bytes) : Bytes :=
  (chunks.map chunkText).flatten ++ [48, 13, 10] ++ trailer

/-! ## Lemmas on reading -/

theorem readFull_append (a rest : Bytes) :
    readFull a.length (a ++ rest) = (.ok a, rest) := by
  simp [readFull]

theorem readUint8_cons (b : Nat) (s : Bytes) : readUint8 (b :: s) = (b, s) := by
  rfl

theorem readUint16_cons (hi lo : Nat) (s : Bytes) :
    readUint16 (hi :: lo :: s) = (hi * 256 + lo, s) := by
  rfl

theorem pad_take_length (p : Nat) (hp : p < 256) : (pad.take p).length = p := by
  simp only [pad, maxPad, List.length_take, List.length_replicate]
  omega

theorem pad_take_eq (p : Nat) (hp : p < 256) : pad.take p = List.replicate p 0 := by
  simp only [pad, maxPad, List.take_replicate]
  congr 1
  omega

theorem readRecord_encode (h : Header) (hr : h.inRange) (body rest : Bytes)
    (hb : body.length = h.ContentLength + h.PaddingLength) :
    readRecord (h.encode ++ body ++ rest)
      = (.ok { Header := h, Content := body.take h.ContentLength }, rest) := by
  obtain ⟨h1, h2, h3, h4, h5, h6⟩ := hr
  have e1 : h.Id / 256 % 256 * 256 + h.Id % 256 = h.Id := by omega
  have e2 : h.ContentLength / 256 % 256 * 256 + h.ContentLength % 256 = h.ContentLength := by
    omega
  simp only [Header.encode, putUint16, List.cons_append, List.nil_append, readRecord,
    readUint8_cons, readUint16_cons, e1, e2, Nat.mod_eq_of_lt h1, Nat.mod_eq_of_lt h2,
    Nat.mod_eq_of_lt h5, Nat.mod_eq_of_lt h6]
  rw [← hb, readFull_append]


theorem readRecord_toBytes_inv (r : Record) (rest : Bytes) (hr : r.Header.inRange)
    (hcl : r.Header.ContentLength = r.Content.length) :
    readRecord (r.toBytes ++ rest) = (.ok r, rest) := by
  have hp : (pad.take r.Header.PaddingLength).length = r.Header.PaddingLength :=
    pad_take_length _ hr.2.2.2.2.1
  have hb : (r.Content ++ pad.take r.Header.PaddingLength).length
      = r.Header.ContentLength + r.Header.PaddingLength := by
    rw [List.length_append, hp, hcl]
  have key := readRecord_encode r.Header hr (r.Content ++ pad.take r.Header.PaddingLength) rest hb
  have ht : (r.Content ++ pad.take r.Header.PaddingLength).take r.Header.ContentLength
      = r.Content := by
    rw [hcl]
    exact List.take_left _ _
  rw [ht] at key
  simpa [Record.toBytes, List.append_assoc] using key

/-! ## Records on the wire -/

/-- C1: record round trip. For every record whose header fields are in the
range of their Go types (so the padding length is in [0, 255]) and whose
ContentLength equals the length of its Content (so that length is at most
65535), readRecord on a stream that starts with the bytes of toBytes succeeds,
returns that very record (same Version, Type, Id, ContentLength, PaddingLength
and Reserved, and the Content without any padding byte) and leaves exactly the
bytes after the record unread. -/
theorem readRecord_toBytes_roundtrip (r : Record) (rest : Bytes) (hr : r.Header.inRange)
    (hcl : r.Header.ContentLength = r.Content.length) :
    readRecord (r.toBytes ++ rest) = (.ok r, rest) :=
  readRecord_toBytes_inv r rest hr hcl

/-- Witness of C1: a STDOUT record with two content bytes and three padding
bytes, followed on the stream by one more byte. -/
theorem readRecord_toBytes_roundtrip_witness :
    readRecord (Record.toBytes ⟨⟨1, 6, 1, 2, 3, 0⟩, [97, 98]⟩ ++ [7])
      = (.ok ⟨⟨1, 6, 1, 2, 3, 0⟩, [97, 98]⟩, [7]) :=
  readRecord_toBytes_roundtrip ⟨⟨1, 6, 1, 2, 3, 0⟩, [97, 98]⟩ [7] (by decide) (by decide)

/-- C2: wire layout of Record.toBytes. For every record whose header fields are
in the range of their Go types, the output is Version, Type, the high and low
byte of Id, the high and low byte of ContentLength, PaddingLength, Reserved,
then Content, then PaddingLength zero bytes, and it is
8 + len(Content) + PaddingLength bytes long. -/
theorem toBytes_layout (r : Record) (hr : r.Header.inRange) :
    r.toBytes =
        [r.Header.Version, r.Header.RecType, r.Header.Id / 256, r.Header.Id % 256,
          r.Header.ContentLength / 256, r.Header.ContentLength % 256,
          r.Header.PaddingLength, r.Header.Reserved]
        ++ r.Content ++ List.replicate r.Header.PaddingLength 0
      ∧ r.toBytes.length = 8 + r.Content.length + r.Header.PaddingLength := by
  obtain ⟨h1, h2, h3, h4, h5, h6⟩ := hr
  have e1 : r.Header.Id / 256 % 256 = r.Header.Id / 256 := by omega
  have e2 : r.Header.ContentLength / 256 % 256 = r.Header.ContentLength / 256 := by omega
  have e : r.toBytes =
        [r.Header.Version, r.Header.RecType, r.Header.Id / 256, r.Header.Id % 256,
          r.Header.ContentLength / 256, r.Header.ContentLength % 256,
          r.Header.PaddingLength, r.Header.Reserved]
        ++ r.Content ++ List.replicate r.Header.PaddingLength 0 := by
    simp only [Record.toBytes, Header.encode, putUint16, pad_take_eq _ h5, e1, e2,
      Nat.mod_eq_of_lt h1, Nat.mod_eq_of_lt h2, Nat.mod_eq_of_lt h5, Nat.mod_eq_of_lt h6,
      List.cons_append, List.nil_append]
  refine ⟨e, ?_⟩
  rw [e]
  simp only [List.length_append, List.length_cons, List.length_nil, List.length_replicate]

/-- Witness of C2: a STDOUT record with identifier 258, two content bytes and
three padding bytes. -/
theorem toBytes_layout_witness :
    Record.toBytes ⟨⟨1, 6, 258, 2, 3, 0⟩, [97, 98]⟩ = [1, 6, 1, 2, 0, 2, 3, 0, 97, 98, 0, 0, 0]
      ∧ (Record.toBytes ⟨⟨1, 6, 258, 2, 3, 0⟩, [97, 98]⟩).length = 13 :=
  toBytes_layout ⟨⟨1, 6, 258, 2, 3, 0⟩, [97, 98]⟩ (by decide)

/-! ## Name/value pairs -/

theorem or_high_bit (n : Nat) (hn : n < 2147483648) :
    (n % 4294967296) ||| 2147483648 = n + 2147483648 := by
  have h1 : n % 4294967296 = n := Nat.mod_eq_of_lt (by omega)
  have h2 := Nat.mul_add_lt_is_or (i := 31) (b := n) (by norm_num; exact hn) 1
  norm_num at h2
  rw [h1, Nat.or_comm, ← h2]
  omega

theorem size_eq_sizeField (n : Nat) (hn : n < 2147483648) :
    EncodeContext.size n = sizeField n := by
  unfold EncodeContext.size sizeField
  by_cases h : n ≤ 127
  · have h1 : ¬ n > 127 := by omega
    have h2 : n % 256 = n := by omega
    simp [h, h1, h2]
  · have h1 : n > 127 := by omega
    simp [h, h1, or_high_bit n hn]

theorem sizeField_bytes (n : Nat) (hn : n < 2147483648) :
    (n ≤ 127 → sizeField n = [n]) ∧
      (127 < n → sizeField n
        = [128 + n / 16777216, n / 65536 % 256, n / 256 % 256, n % 256]) := by
  unfold sizeField putUint32
  constructor
  · intro h
    simp [h]
  · intro h
    have h1 : ¬ n ≤ 127 := by omega
    simp only [h1, if_false]
    have a0 : (n + 2147483648) / 16777216 % 256 = 128 + n / 16777216 := by omega
    have a1 : (n + 2147483648) / 65536 % 256 = n / 65536 % 256 := by omega
    have a2 : (n + 2147483648) / 256 % 256 = n / 256 % 256 := by omega
    have a3 : (n + 2147483648) % 256 = n % 256 := by omega
    rw [a0, a1, a2, a3]

theorem decodeSize_sizeField (n : Nat) (hn : n < 2147483648) (s : Bytes) :
    decodeSize (sizeField n ++ s) = some (n, s) := by
  obtain ⟨hs, hl⟩ := sizeField_bytes n hn
  by_cases h : n ≤ 127
  · have h1 : n < 128 := by omega
    simp [hs h, decodeSize, h1]
  · have h1 : 127 < n := by omega
    have h2 : ¬ (128 + n / 16777216 < 128) := by omega
    have h3 : ((128 + n / 16777216) * 16777216 + n / 65536 % 256 * 65536
        + n / 256 % 256 * 256 + n % 256) % 2147483648 = n := by omega
    simp [hl h1, decodeSize, h2, h3]

theorem sizeField_length_le (n : Nat) : (sizeField n).length ≤ 4 := by
  unfold sizeField putUint32
  split <;> simp

theorem decodePair_block (k v rest : Bytes) (hk : k.length < 2147483648)
    (hv : v.length < 2147483648) :
    decodePair (sizeField k.length ++ sizeField v.length ++ k ++ v ++ rest)
      = some (k, v, rest) := by
  unfold decodePair
  have e : sizeField k.length ++ sizeField v.length ++ k ++ v ++ rest
      = sizeField k.length ++ (sizeField v.length ++ (k ++ (v ++ rest))) := by
    simp only [List.append_assoc]
  rw [e, decodeSize_sizeField _ hk]
  simp only []
  rw [decodeSize_sizeField _ hv]
  simp

theorem pair_fits (reqId : Nat) (k v : Bytes) (h : 8 + k.length + v.length ≤ 65535) :
    EncodeContext.pair reqId k v
      = some (NewRecord reqId FCGI_PARAMS (sizeField k.length ++ sizeField v.length ++ k ++ v)) := by
  have h1 : ¬ (8 + k.length + v.length > maxWrite) := by
    simp only [maxWrite]
    omega
  simp only [EncodeContext.pair, h1, if_false]
  rw [size_eq_sizeField _ (by omega), size_eq_sizeField _ (by omega)]

theorem pair_truncates (reqId : Nat) (k v : Bytes) (hk : k.length ≤ 65535 - 8)
    (h : ¬ (8 + k.length + v.length ≤ 65535)) :
    EncodeContext.pair reqId k v
      = some (NewRecord reqId FCGI_PARAMS
          (sizeField k.length ++ sizeField (65535 - 8 - k.length) ++ k
            ++ v.take (65535 - 8 - k.length))) := by
  have h1 : 8 + k.length + v.length > maxWrite := by
    simp only [maxWrite]
    omega
  have h2 : ¬ ((maxWrite : Int) - 8 - (k.length : Int) < 0
      ∨ (maxWrite : Int) - 8 - (k.length : Int) > (v.length : Int)) := by
    simp only [maxWrite]
    omega
  have h3 : ((maxWrite : Int) - 8 - (k.length : Int)).toNat = 65535 - 8 - k.length := by
    simp only [maxWrite]
    omega
  have h4 : (v.take (65535 - 8 - k.length)).length = 65535 - 8 - k.length := by
    rw [List.length_take]
    omega
  simp only [EncodeContext.pair, h1, if_true, h2, if_false, h3, h4]
  rw [size_eq_sizeField _ (by omega), size_eq_sizeField _ (by omega)]

/-- C3: name/value block layout. For a context holding one pair (k, v) with
8 + len(k) + len(v) ≤ 65535, EncodeContext returns one PARAMS record whose
content is sizeField(len k) ++ sizeField(len v) ++ k ++ v; and for every
length n below 2^31 the size field is the single byte n, below 128, when
n ≤ 127, and otherwise four bytes, the big-endian bytes of n + 2^31, the first
of them at least 128 (top bit set). -/
theorem EncodeContext_single_layout (reqId : Nat) (k v : Bytes)
    (h : 8 + k.length + v.length ≤ 65535) :
    EncodeContext reqId [(k, v)]
        = some [NewRecord reqId FCGI_PARAMS
            (sizeField k.length ++ sizeField v.length ++ k ++ v)]
      ∧ (NewRecord reqId FCGI_PARAMS
            (sizeField k.length ++ sizeField v.length ++ k ++ v)).Content
          = sizeField k.length ++ sizeField v.length ++ k ++ v
      ∧ ∀ n, n < 2147483648 →
          (n ≤ 127 → sizeField n = [n] ∧ n < 128) ∧
          (127 < n → sizeField n = putUint32 (n + 2147483648) ∧
            sizeField n = [128 + n / 16777216, n / 65536 % 256, n / 256 % 256, n % 256] ∧
            128 ≤ 128 + n / 16777216 ∧ 128 + n / 16777216 < 256) := by
  refine ⟨?_, rfl, ?_⟩
  · simp only [EncodeContext, pair_fits reqId k v h]
  · intro n hn
    obtain ⟨hs, hl⟩ := sizeField_bytes n hn
    refine ⟨fun h1 => ⟨hs h1, by omega⟩, fun h1 => ⟨?_, hl h1, by omega, by omega⟩⟩
    have h2 : ¬ n ≤ 127 := by omega
    simp [sizeField, h2]

/-- Witness of C3: the pair ("a", "bc"). -/
theorem EncodeContext_single_layout_witness :
    EncodeContext 1 [([97], [98, 99])]
        = some [NewRecord 1 FCGI_PARAMS
            (sizeField 1 ++ sizeField 2 ++ [97] ++ [98, 99])]
      ∧ (NewRecord 1 FCGI_PARAMS (sizeField 1 ++ sizeField 2 ++ [97] ++ [98, 99])).Content
          = sizeField 1 ++ sizeField 2 ++ [97] ++ [98, 99]
      ∧ ∀ n, n < 2147483648 →
          (n ≤ 127 → sizeField n = [n] ∧ n < 128) ∧
          (127 < n → sizeField n = putUint32 (n + 2147483648) ∧
            sizeField n = [128 + n / 16777216, n / 65536 % 256, n / 256 % 256, n % 256] ∧
            128 ≤ 128 + n / 16777216 ∧ 128 + n / 16777216 < 256) :=
  EncodeContext_single_layout 1 [97] [98, 99] (by decide)

/-- C4: name/value round trip with truncation. For every name k with
len(k) ≤ 65535 - 8 and every value v, EncodeContext on the pair (k, v) returns
one PARAMS record, and the reference decoder reads from its content the name
k, untruncated, the value v itself when 8 + len(k) + len(v) ≤ 65535 and
otherwise the first 65535 - 8 - len(k) bytes of v (a value of exactly that
length), and nothing after the pair. -/
theorem EncodeContext_decode_roundtrip (reqId : Nat) (k v : Bytes)
    (hk : k.length ≤ 65535 - 8) :
    ∃ r, EncodeContext reqId [(k, v)] = some [r]
      ∧ r.Header.RecType = FCGI_PARAMS
      ∧ decodePair r.Content
          = some (k, (if 8 + k.length + v.length ≤ 65535 then v
              else v.take (65535 - 8 - k.length)), [])
      ∧ (¬ (8 + k.length + v.length ≤ 65535) →
          (v.take (65535 - 8 - k.length)).length = 65535 - 8 - k.length) := by
  by_cases h : 8 + k.length + v.length ≤ 65535
  · refine ⟨NewRecord reqId FCGI_PARAMS (sizeField k.length ++ sizeField v.length ++ k ++ v),
      by simp only [EncodeContext, pair_fits reqId k v h], rfl, ?_, fun h1 => absurd h h1⟩
    have := decodePair_block k v [] (by omega) (by omega)
    simpa [NewRecord, h] using this
  · refine ⟨NewRecord reqId FCGI_PARAMS
        (sizeField k.length ++ sizeField (65535 - 8 - k.length) ++ k
          ++ v.take (65535 - 8 - k.length)),
      by simp only [EncodeContext, pair_truncates reqId k v hk h], rfl, ?_, ?_⟩
    · have hl : (v.take (65535 - 8 - k.length)).length = 65535 - 8 - k.length := by
        rw [List.length_take]
        omega
      have := decodePair_block k (v.take (65535 - 8 - k.length)) [] (by omega) (by omega)
      rw [hl] at this
      simpa [NewRecord, h] using this
    · intro _
      rw [List.length_take]
      omega

/-- Witness of C4: a name of 128 bytes with a value of 70000 bytes, which is
cut to 65535 - 8 - 128 bytes. -/
theorem EncodeContext_decode_roundtrip_witness :
    ∃ r, EncodeContext 1 [(List.replicate 128 65, List.replicate 70000 66)] = some [r]
      ∧ r.Header.RecType = FCGI_PARAMS
      ∧ decodePair r.Content
          = some (List.replicate 128 65,
              (if 8 + (List.replicate 128 65).length + (List.replicate 70000 66).length ≤ 65535
                then List.replicate 70000 66
                else (List.replicate 70000 66).take (65535 - 8 - (List.replicate 128 65).length)),
              [])
      ∧ (¬ (8 + (List.replicate 128 65).length + (List.replicate 70000 66).length ≤ 65535) →
          ((List.replicate 70000 66).take (65535 - 8 - (List.replicate 128 65).length)).length
            = 65535 - 8 - (List.replicate 128 65).length) :=
  EncodeContext_decode_roundtrip 1 (List.replicate 128 65) (List.replicate 70000 66)
    (by simp)

/-! ## The body stream -/

theorem chunks_nil (fuel : Nat) : EncodeBody.chunks fuel [] = [] := by
  cases fuel <;> simp [EncodeBody.chunks]

theorem chunks_flatten (fuel : Nat) :
    ∀ body : Bytes, body.length ≤ fuel → (EncodeBody.chunks fuel body).flatten = body := by
  induction fuel with
  | zero =>
    intro body hb
    have : body = [] := List.length_eq_zero.mp (by omega)
    simp [this, EncodeBody.chunks]
  | succ fuel ih =>
    intro body hb
    by_cases h0 : body.length > 0
    · have hd : (body.drop (min body.length maxWrite)).length ≤ fuel := by
        simp only [List.length_drop, maxWrite]
        omega
      simp only [EncodeBody.chunks, h0, if_true, List.flatten_cons, ih _ hd, List.take_append_drop]
    · have : body = [] := List.length_eq_zero.mp (by omega)
      simp [this, EncodeBody.chunks]

theorem chunks_sizes (fuel : Nat) :
    ∀ body : Bytes, body.length ≤ fuel →
      (EncodeBody.chunks fuel body).map List.length
        = List.replicate (body.length / 65535) 65535
          ++ (if body.length % 65535 = 0 then [] else [body.length % 65535]) := by
  induction fuel with
  | zero =>
    intro body hb
    have : body = [] := List.length_eq_zero.mp (by omega)
    simp [this, EncodeBody.chunks]
  | succ fuel ih =>
    intro body hb
    by_cases h0 : body.length > 0
    · have hd : (body.drop (min body.length maxWrite)).length ≤ fuel := by
        simp only [List.length_drop, maxWrite]
        omega
      have hih := ih _ hd
      simp only [EncodeBody.chunks, h0, if_true, List.map_cons, hih, List.length_take,
        List.length_drop]
      simp only [maxWrite]
      by_cases hbig : body.length < 65535
      · have e1 : min (min body.length 65535) body.length = body.length := by omega
        have e2 : (body.length - min body.length 65535) / 65535 = 0 := by omega
        have e3 : body.length / 65535 = 0 := by omega
        have e4 : body.length % 65535 = body.length := by omega
        have e5 : ¬ body.length = 0 := by omega
        have e6 : (body.length - min body.length 65535) % 65535 = 0 := by omega
        simp [e1, e2, e3, e4, e5, e6]
        omega
      · have e1 : min (min body.length 65535) body.length = 65535 := by omega
        have e2 : body.length - min body.length 65535 = body.length - 65535 := by omega
        have e3 : body.length / 65535 = (body.length - 65535) / 65535 + 1 := by omega
        have e4 : (body.length - 65535) % 65535 = body.length % 65535 := by omega
        rw [e1, e2, e3, e4, List.replicate_succ, List.cons_append]
    · have : body = [] := List.length_eq_zero.mp (by omega)
      simp [this, EncodeBody.chunks]

theorem EncodeBody_contents (reqId : Nat) (body : Bytes) :
    (EncodeBody reqId body).map (fun r => r.Content) = EncodeBody.chunks body.length body := by
  simp only [EncodeBody, List.map_map]
  conv_rhs => rw [← List.map_id (EncodeBody.chunks body.length body)]
  apply List.map_congr_left
  intro c _
  rfl

/-- C5: body chunking preserves the body. For every body, the contents of the
records EncodeBody returns, concatenated in order, are the body. -/
theorem EncodeBody_flatten (reqId : Nat) (body : Bytes) :
    ((EncodeBody reqId body).map (fun r => r.Content)).flatten = body := by
  rw [EncodeBody_contents]
  exact chunks_flatten _ body (Nat.le_refl _)

/-- C6: body chunk count and sizes. For every body of N bytes, EncodeBody
returns (N + 65534) / 65535 records, which is the ceiling of N / 65535 and zero
for N = 0; the content lengths of the records are N / 65535 times 65535 and
then, when 65535 does not divide N, once N mod 65535: every record but the
last carries 65535 bytes and the last carries between 1 and 65535 bytes. -/
theorem EncodeBody_count_sizes (reqId : Nat) (body : Bytes) :
    (EncodeBody reqId body).length = (body.length + 65534) / 65535
      ∧ (EncodeBody reqId body).map (fun r => r.Content.length)
          = List.replicate (body.length / 65535) 65535
            ++ (if body.length % 65535 = 0 then [] else [body.length % 65535])
      ∧ (∀ r ∈ EncodeBody reqId body, 1 ≤ r.Content.length ∧ r.Content.length ≤ 65535)
      ∧ (∀ i, i + 1 < (EncodeBody reqId body).length →
          ((EncodeBody reqId body)[i]?).map (fun r => r.Content.length) = some 65535) := by
  have hs : (EncodeBody reqId body).map (fun r => r.Content.length)
      = List.replicate (body.length / 65535) 65535
        ++ (if body.length % 65535 = 0 then [] else [body.length % 65535]) := by
    have := chunks_sizes _ body (Nat.le_refl _)
    rw [← EncodeBody_contents reqId body, List.map_map] at this
    exact this
  have hlen : (EncodeBody reqId body).length = (body.length + 65534) / 65535 := by
    have := congrArg List.length hs
    rw [List.length_map, List.length_append, List.length_replicate] at this
    rw [this]
    by_cases h : body.length % 65535 = 0
    · simp only [h, if_true, List.length_nil]
      omega
    · simp only [h, if_false, List.length_singleton]
      omega
  refine ⟨hlen, hs, ?_, ?_⟩
  · intro r hr
    have hm : r.Content.length ∈ (EncodeBody reqId body).map (fun r => r.Content.length) :=
      List.mem_map_of_mem _ hr
    rw [hs, List.mem_append] at hm
    rcases hm with hm | hm
    · have := (List.mem_replicate.mp hm).2
      omega
    · by_cases h : body.length % 65535 = 0
      · simp [h] at hm
      · simp only [h, if_false, List.mem_singleton] at hm
        omega
  · intro i hi
    rw [← List.getElem?_map, hs]
    have hq : i < body.length / 65535 := by
      rw [hlen] at hi
      omega
    rw [List.getElem?_append_left (by simpa using hq)]
    simp [List.getElem?_replicate, hq]

/-! ## Writing a stream and reading the response -/

theorem foldl_writeRecord (rs : List Record) :
    ∀ written : Bytes,
      rs.foldl writeRecord written = written ++ (rs.map Record.toBytes).flatten := by
  induction rs with
  | nil => intro written; simp
  | cons r rs ih =>
    intro written
    simp only [List.foldl_cons, ih, writeRecord, List.map_cons, List.flatten_cons,
      List.append_assoc]

/-- C7: stream termination. For a non-empty list of records, writeStream hands
to the transport the encodings of the records in order and then the encoding
of one more record, which has Version 1, the type of the first record, the
Id of the request, ContentLength 0, no padding and no content, eight bytes in
all; for the empty list it hands over nothing. -/
theorem writeStream_terminator (written : Bytes) (reqId : Nat) (r : Record)
    (rs : List Record) :
    writeStream written reqId (r :: rs)
        = written ++ ((r :: rs).map Record.toBytes).flatten
          ++ Record.toBytes ⟨⟨1, r.Header.RecType, reqId, 0, 0, 0⟩, []⟩
      ∧ Record.toBytes ⟨⟨1, r.Header.RecType, reqId, 0, 0, 0⟩, []⟩
          = [1, r.Header.RecType % 256, reqId / 256 % 256, reqId % 256, 0, 0, 0, 0]
      ∧ writeStream written reqId [] = written := by
  refine ⟨?_, ?_, rfl⟩
  · simp only [writeStream, foldl_writeRecord, writeRecord, NewRecord, List.length_nil,
      Nat.zero_mod]
  · simp [Record.toBytes, Header.encode, putUint16]

theorem loop_succ (fuel : Nat) (response s : Bytes) :
    readResponse.loop (fuel + 1) response s
      = match readRecord s with
        | (.error _, _) => .panicked response
        | (.ok r, s) =>
          if r.Header.RecType = FCGI_END_REQUEST then .returned response s
          else readResponse.loop fuel (response ++ r.Content) s := rfl

theorem loop_ok_end (fuel : Nat) (response s rest : Bytes) (e : Record)
    (h : readRecord s = (.ok e, rest)) (het : e.Header.RecType = FCGI_END_REQUEST) :
    readResponse.loop (fuel + 1) response s = .returned response rest := by
  rw [loop_succ, h]
  simp only [het, if_true]

theorem loop_ok_more (fuel : Nat) (response s rest : Bytes) (r : Record)
    (h : readRecord s = (.ok r, rest)) (ht : ¬ r.Header.RecType = FCGI_END_REQUEST) :
    readResponse.loop (fuel + 1) response s
      = readResponse.loop fuel (response ++ r.Content) rest := by
  rw [loop_succ, h]
  simp only [ht, if_false]

theorem loop_records (rs : List Record) (e : Record) (rest : Bytes)
    (hrs : ∀ r ∈ rs, r.wellFormed ∧ r.Header.RecType = FCGI_STDOUT)
    (he : e.wellFormed) (het : e.Header.RecType = FCGI_END_REQUEST) :
    ∀ (fuel : Nat) (response : Bytes), rs.length < fuel →
      readResponse.loop fuel response ((rs.map Record.toBytes).flatten ++ e.toBytes ++ rest)
        = .returned (response ++ (rs.map (fun r => r.Content)).flatten) rest := by
  induction rs with
  | nil =>
    intro fuel response hf
    obtain ⟨fuel, rfl⟩ : ∃ n, fuel = n + 1 := ⟨fuel - 1, by simp at hf; omega⟩
    simp only [List.map_nil, List.flatten_nil, List.nil_append, List.append_nil]
    exact loop_ok_end fuel response _ rest e (readRecord_toBytes_inv e rest he.1 he.2) het
  | cons r rs ih =>
    intro fuel response hf
    obtain ⟨fuel, rfl⟩ : ∃ n, fuel = n + 1 := ⟨fuel - 1, by simp at hf; omega⟩
    have hr := hrs r (List.mem_cons_self _ _)
    have ht : ¬ r.Header.RecType = FCGI_END_REQUEST := by
      rw [hr.2]
      decide
    have hrs2 : ∀ x ∈ rs, x.wellFormed ∧ x.Header.RecType = FCGI_STDOUT :=
      fun x hx => hrs x (List.mem_cons_of_mem _ hx)
    have hf2 : rs.length < fuel := by
      simp only [List.length_cons] at hf
      omega
    have e1 : (List.map Record.toBytes (r :: rs)).flatten ++ e.toBytes ++ rest
        = r.toBytes ++ ((List.map Record.toBytes rs).flatten ++ e.toBytes ++ rest) := by
      simp only [List.map_cons, List.flatten_cons, List.append_assoc]
    rw [e1, loop_ok_more fuel response _ _ r (readRecord_toBytes_inv r _ hr.1.1 hr.1.2) ht,
      ih hrs2 fuel _ hf2]
    simp only [List.map_cons, List.flatten_cons, List.append_assoc]

/-- C8: demultiplexing. For every input stream made of the encodings of
well-formed STDOUT records, then the encoding of a well-formed END_REQUEST
record, then arbitrary further bytes, readResponse (given more turns than
there are STDOUT records) returns the contents of the STDOUT records
concatenated in order and leaves exactly the bytes after the END_REQUEST
record unread. -/
theorem readResponse_demux (rs : List Record) (e : Record) (rest : Bytes) (fuel : Nat)
    (hrs : ∀ r ∈ rs, r.wellFormed ∧ r.Header.RecType = FCGI_STDOUT)
    (he : e.wellFormed) (het : e.Header.RecType = FCGI_END_REQUEST)
    (hf : rs.length < fuel) :
    readResponse fuel ((rs.map Record.toBytes).flatten ++ e.toBytes ++ rest)
      = .returned (rs.map (fun r => r.Content)).flatten rest := by
  have := loop_records rs e rest hrs he het fuel [] hf
  simpa [readResponse] using this

/-- Witness of C8: STDOUT records with contents "ab" and "cd", an END_REQUEST
record, then three more bytes; the result is "abcd" and the three bytes stay
unread. -/
theorem readResponse_demux_witness :
    readResponse 3
        (([⟨⟨1, 6, 1, 2, 0, 0⟩, [97, 98]⟩, ⟨⟨1, 6, 1, 2, 6, 0⟩, [99, 100]⟩].map
            Record.toBytes).flatten
          ++ Record.toBytes ⟨⟨1, 3, 1, 8, 0, 0⟩, [0, 0, 0, 0, 0, 0, 0, 0]⟩ ++ [1, 2, 3])
      = .returned [97, 98, 99, 100] [1, 2, 3] :=
  readResponse_demux [⟨⟨1, 6, 1, 2, 0, 0⟩, [97, 98]⟩, ⟨⟨1, 6, 1, 2, 6, 0⟩, [99, 100]⟩]
    ⟨⟨1, 3, 1, 8, 0, 0⟩, [0, 0, 0, 0, 0, 0, 0, 0]⟩ [1, 2, 3] 3 (by decide) (by decide)
    (by decide) (by decide)

/-! ## Parsing the response text -/

theorem cut_append_of_not_mem (c : Nat) (rest : Bytes) :
    ∀ l : Bytes, c ∉ l → cut (l ++ c :: rest) c = some (l, rest) := by
  intro l
  induction l with
  | nil => intro _; simp [cut]
  | cons b l ih =>
    intro h
    have hb : ¬ b = c := fun e => h (by simp [e])
    have hl : c ∉ l := fun e => h (List.mem_cons_of_mem _ e)
    simp [cut, hb, ih hl]

theorem indexByte_append_of_not_mem (c : Nat) (rest : Bytes) :
    ∀ l : Bytes, c ∉ l → indexByte (l ++ c :: rest) c = some l.length := by
  intro l
  induction l with
  | nil => intro _; simp [indexByte]
  | cons b l ih =>
    intro h
    have hb : ¬ b = c := fun e => h (by simp [e])
    have hl : c ∉ l := fun e => h (List.mem_cons_of_mem _ e)
    simp [indexByte, hb, ih hl]

theorem indexByte_ne_none_of_mem (c : Nat) :
    ∀ l : Bytes, c ∈ l → indexByte l c ≠ none := by
  intro l
  induction l with
  | nil => intro h; simp at h
  | cons b l ih =>
    intro h
    by_cases hb : b = c
    · simp [indexByte, hb]
    · have hl : c ∈ l := by
        rcases List.mem_cons.mp h with e | e
        · exact absurd e.symm hb
        · exact e
      have := ih hl
      simp only [indexByte, hb, if_false]
      cases hi : indexByte l c with
      | none => exact absurd hi this
      | some i => simp

theorem dropCR_concat (l : Bytes) : dropCR (l ++ [13]) = l := by
  simp [dropCR]

theorem ReadLine_crlf (l rest : Bytes) (h : 10 ∉ l) :
    ReadLine (l ++ [13, 10] ++ rest) = (.ok l, rest) := by
  have e : l ++ [13, 10] ++ rest = (l ++ [13]) ++ 10 :: rest := by simp
  have h2 : 10 ∉ l ++ [13] := by
    simp only [List.mem_append, List.mem_singleton]
    rintro (h1 | h1)
    · exact h h1
    · omega
  rw [e, ReadLine, cut_append_of_not_mem 10 rest _ h2]
  simp only [dropCR_concat]

theorem token_byte (c : Nat) (h : validHeaderFieldByte c = true) :
    c ≠ 58 ∧ c ≠ 32 ∧ c ≠ 9 ∧ c ≠ 10 ∧ c ≠ 13 := by
  simp only [validHeaderFieldByte, Bool.or_eq_true, Bool.and_eq_true, decide_eq_true_eq,
    beq_iff_eq] at h
  omega

theorem value_byte (c : Nat) (h : validHeaderValueByte c = true) : c ≠ 10 ∧ c ≠ 13 := by
  simp only [validHeaderValueByte, Bool.or_eq_true, Bool.and_eq_true, decide_eq_true_eq,
    beq_iff_eq] at h
  omega

theorem rdropWhile_append_self (a w : Bytes) (hw : w.rdropWhile isSpaceTab = w) (hne : w ≠ []) :
    (a ++ w).rdropWhile isSpaceTab = a ++ w := by
  rw [List.rdropWhile_eq_self_iff]
  intro hl
  rw [List.getLast_append_right hne]
  exact (List.rdropWhile_eq_self_iff.mp hw) hne

theorem trim_header (n v : Bytes) (hn : n ≠ []) (hnt : n.all validHeaderFieldByte = true)
    (hvr : v.rdropWhile isSpaceTab = v) :
    trim (n ++ [58, 32] ++ v) = n ++ 58 :: (if v = [] then [] else 32 :: v) := by
  cases n with
  | nil => exact absurd rfl hn
  | cons a n =>
    have ha : validHeaderFieldByte a = true := by
      simp only [List.all_cons, Bool.and_eq_true] at hnt
      exact hnt.1
    have hsp : ¬ isSpaceTab a = true := by
      have := token_byte a ha
      simp only [isSpaceTab, Bool.or_eq_true, beq_iff_eq]
      omega
    have e1 : (a :: n ++ [58, 32] ++ v).dropWhile isSpaceTab = a :: n ++ [58, 32] ++ v := by
      simp only [List.cons_append]
      exact List.dropWhile_cons_of_neg hsp
    rw [trim, e1]
    by_cases hv : v = []
    · subst hv
      have e2 : a :: n ++ [58, 32] ++ [] = (a :: n ++ [58]) ++ [32] := by simp
      rw [e2, List.rdropWhile_concat_pos _ _ _ (by decide),
        List.rdropWhile_concat_neg _ _ _ (by decide)]
      simp
    · have e2 : a :: n ++ [58, 32] ++ v = (a :: n ++ [58, 32]) ++ v := by simp
      rw [e2, rdropWhile_append_self _ v hvr hv]
      simp [hv]

theorem header_line_no_lf (nv : Bytes × Bytes) (h : headerLineOK nv) :
    10 ∉ nv.1 ++ [58, 32] ++ nv.2 := by
  obtain ⟨_, hn, hv, _, _⟩ := h
  rw [List.all_eq_true] at hn hv
  simp only [List.mem_append, List.mem_cons, List.mem_singleton, List.not_mem_nil, or_false]
  rintro ((h1 | h1) | h1)
  · exact (token_byte 10 (hn 10 h1)).2.2.2.1 rfl
  · omega
  · exact (value_byte 10 (hv 10 h1)).1 rfl

theorem more_stops (buf s : Bytes) (hs : s.takeWhile isSpaceTab = []) :
    ∀ fuel, readContinuedLineSlice.more fuel buf s = (buf, s) := by
  intro fuel
  cases fuel with
  | zero => rfl
  | succ fuel =>
    rw [readContinuedLineSlice.more]
    simp [hs]

theorem canonical_token (n : Bytes) (hn : n ≠ []) (hnt : n.all validHeaderFieldByte = true) :
    canonicalMIMEHeaderKey n = (canonicalMIMEHeaderKey.fix true n, true) := by
  have h0 : ¬ n.length = 0 := fun e => hn (List.length_eq_zero.mp e)
  rw [List.all_eq_true] at hnt
  have h1 : n.any (fun c => !validHeaderFieldByte c && c != 32) = false := by
    rw [List.any_eq_false]
    intro c hc
    simp [hnt c hc]
  have h2 : n.any (fun c => c == 32) = false := by
    rw [List.any_eq_false]
    intro c hc
    have := (token_byte c (hnt c hc)).2.1
    simpa using this
  simp [canonicalMIMEHeaderKey, h0, h1, h2]

theorem fix_ne_nil (n : Bytes) (hn : n ≠ []) (u : Bool) : canonicalMIMEHeaderKey.fix u n ≠ [] := by
  cases n with
  | nil => exact absurd rfl hn
  | cons a n => simp [canonicalMIMEHeaderKey.fix]

theorem readContinued_header (nv : Bytes × Bytes) (tail : Bytes) (h : headerLineOK nv)
    (ht : tail.takeWhile isSpaceTab = []) :
    readContinuedLineSlice (headerLine nv ++ tail)
      = (.ok (nv.1 ++ 58 :: (if nv.2 = [] then [] else 32 :: nv.2)), tail) := by
  have e : headerLine nv ++ tail = (nv.1 ++ [58, 32] ++ nv.2) ++ [13, 10] ++ tail := by
    simp [headerLine]
  have hl : ¬ (nv.1 ++ [58, 32] ++ nv.2).length = 0 := by
    simp
  have hc : ¬ indexByte (nv.1 ++ [58, 32] ++ nv.2) 58 = none :=
    indexByte_ne_none_of_mem 58 _ (by simp)
  rw [e, readContinuedLineSlice, ReadLine_crlf _ _ (header_line_no_lf nv h)]
  simp only [hl, hc, if_false, more_stops _ _ ht, trim_header nv.1 nv.2 h.1 h.2.1 h.2.2.2.2]

theorem readContinued_blank (body : Bytes) :
    readContinuedLineSlice ([13, 10] ++ body) = (.ok [], body) := by
  have := ReadLine_crlf [] body (by simp)
  simp only [List.nil_append] at this
  rw [readContinuedLineSlice, this]
  simp

theorem block_head (headers : List (Bytes × Bytes)) (body : Bytes)
    (hh : ∀ nv ∈ headers, headerLineOK nv) :
    ((headers.map headerLine).flatten ++ [13, 10] ++ body).takeWhile isSpaceTab = [] := by
  cases headers with
  | nil => simp [isSpaceTab]
  | cons nv rest =>
    obtain ⟨hn, hnt, _⟩ := hh nv (List.mem_cons_self _ _)
    cases hname : nv.1 with
    | nil => exact absurd hname hn
    | cons a n =>
      have ha : validHeaderFieldByte a = true := by
        rw [hname] at hnt
        simp only [List.all_cons, Bool.and_eq_true] at hnt
        exact hnt.1
      have hsp : isSpaceTab a = false := by
        have := token_byte a ha
        simp only [isSpaceTab, Bool.or_eq_false_iff, beq_eq_false_iff_ne, ne_eq]
        omega
      simp [headerLine, hname, hsp]

theorem mime_loop_add (fuel : Nat) (m : MIMEHeader) (s kv rest k v key : Bytes)
    (h1 : readContinuedLineSlice s = (.ok kv, rest)) (h2 : ¬ kv.length = 0)
    (h3 : cut kv 58 = some (k, v)) (h4 : canonicalMIMEHeaderKey k = (key, true))
    (h5 : v.all validHeaderValueByte = true) (h6 : ¬ key = []) :
    ReadMIMEHeader.loop (fuel + 1) m s
      = ReadMIMEHeader.loop fuel (MIMEHeader.add m key (v.dropWhile isSpaceTab)) rest := by
  rw [ReadMIMEHeader.loop, h1]
  simp only [h2, if_false, h3, h4, h5, h6, Bool.not_true, Bool.false_eq_true]

theorem mime_loop_end (fuel : Nat) (m : MIMEHeader) (s kv rest : Bytes)
    (h1 : readContinuedLineSlice s = (.ok kv, rest)) (h2 : kv.length = 0) :
    ReadMIMEHeader.loop (fuel + 1) m s = (.ok m, rest) := by
  rw [ReadMIMEHeader.loop, h1]
  simp only [h2, if_true]

theorem mime_loop_headers (body : Bytes) (headers : List (Bytes × Bytes)) :
    (∀ nv ∈ headers, headerLineOK nv) →
    ∀ (fuel : Nat) (m : MIMEHeader), headers.length < fuel →
      ReadMIMEHeader.loop fuel m ((headers.map headerLine).flatten ++ [13, 10] ++ body)
        = (.ok (headers.foldl
            (fun m nv => MIMEHeader.add m (canonicalMIMEHeaderKey nv.1).1 nv.2) m), body) := by
  induction headers with
  | nil =>
    intro _ fuel m hf
    obtain ⟨fuel, rfl⟩ : ∃ n, fuel = n + 1 := ⟨fuel - 1, by simp at hf; omega⟩
    simp only [List.map_nil, List.flatten_nil, List.nil_append, List.foldl_nil]
    exact mime_loop_end fuel m _ [] body (readContinued_blank body) rfl
  | cons nv rest ih =>
    intro hh fuel m hf
    obtain ⟨fuel, rfl⟩ : ∃ n, fuel = n + 1 := ⟨fuel - 1, by simp at hf; omega⟩
    have hnv := hh nv (List.mem_cons_self _ _)
    have hrest : ∀ x ∈ rest, headerLineOK x := fun x hx => hh x (List.mem_cons_of_mem _ hx)
    have hf2 : rest.length < fuel := by
      simp only [List.length_cons] at hf
      omega
    have e : (List.map headerLine (nv :: rest)).flatten ++ [13, 10] ++ body
        = headerLine nv ++ ((List.map headerLine rest).flatten ++ [13, 10] ++ body) := by
      simp only [List.map_cons, List.flatten_cons, List.append_assoc]
    have hread := readContinued_header nv _ hnv (block_head rest body hrest)
    have hnt := hnv.2.1
    have h58 : 58 ∉ nv.1 := by
      rw [List.all_eq_true] at hnt
      intro hm
      exact (token_byte 58 (hnt 58 hm)).1 rfl
    have hv5 : (if nv.2 = [] then [] else 32 :: nv.2).all validHeaderValueByte = true := by
      by_cases hv : nv.2 = []
      · simp [hv]
      · simp only [hv, if_false, List.all_cons, Bool.and_eq_true]
        exact ⟨by decide, hnv.2.2.1⟩
    have hdrop : (if nv.2 = [] then [] else 32 :: nv.2).dropWhile isSpaceTab = nv.2 := by
      by_cases hv : nv.2 = []
      · simp [hv]
      · simp only [hv, if_false]
        rw [List.dropWhile_cons_of_pos (by decide)]
        exact hnv.2.2.2.1
    rw [e, mime_loop_add fuel m _ _ _ nv.1 _ (canonicalMIMEHeaderKey.fix true nv.1) hread
      (by simp) (cut_append_of_not_mem 58 _ nv.1 h58) (canonical_token nv.1 hnv.1 hnt) hv5
      (fix_ne_nil nv.1 hnv.1 true), hdrop, ih hrest fuel _ hf2]
    simp only [List.foldl_cons, canonical_token nv.1 hnv.1 hnt]

theorem ReadMIMEHeader_of_head (s : Bytes) (hs : s.takeWhile isSpaceTab = []) :
    ReadMIMEHeader s = ReadMIMEHeader.loop (s.length + 1) [] s := by
  cases s with
  | nil => rfl
  | cons b t =>
    have hb : ¬ (b = 32 ∨ b = 9) := by
      intro hb
      have : isSpaceTab b = true := by
        simp only [isSpaceTab, Bool.or_eq_true, beq_iff_eq]
        exact hb
      simp [List.takeWhile_cons, this] at hs
    simp only [ReadMIMEHeader, hb, if_false]

theorem length_le_flatten (headers : List (Bytes × Bytes)) :
    headers.length ≤ ((headers.map headerLine).flatten).length := by
  induction headers with
  | nil => simp
  | cons nv rest ih =>
    simp only [List.map_cons, List.flatten_cons, List.length_cons, List.length_append,
      headerLine, List.length_nil]
    omega

theorem ReadMIMEHeader_block (body : Bytes) (headers : List (Bytes × Bytes))
    (hh : ∀ nv ∈ headers, headerLineOK nv) :
    ReadMIMEHeader ((headers.map headerLine).flatten ++ [13, 10] ++ body)
      = (.ok (headersOf headers), body) := by
  rw [ReadMIMEHeader_of_head _ (block_head headers body hh)]
  apply mime_loop_headers body headers hh
  have := length_le_flatten headers
  simp only [List.length_append, List.length_cons, List.length_nil]
  omega

theorem values_add (key k v : Bytes) :
    ∀ m : MIMEHeader, MIMEHeader.values (MIMEHeader.add m k v) key
      = if k = key then MIMEHeader.values m key ++ [v] else MIMEHeader.values m key := by
  intro m
  induction m with
  | nil =>
    by_cases h : k = key <;> simp [MIMEHeader.add, MIMEHeader.values, h]
  | cons e m ih =>
    obtain ⟨k0, vs⟩ := e
    by_cases h0 : k0 = k
    · subst h0
      by_cases h : k0 = key <;> simp [MIMEHeader.add, MIMEHeader.values, h]
    · by_cases h : k = key
      · subst h
        simp [MIMEHeader.add, MIMEHeader.values, h0, ih]
      · by_cases h1 : k0 = key
        · subst h1
          simp [MIMEHeader.add, MIMEHeader.values, h0, h]
        · simp [MIMEHeader.add, MIMEHeader.values, h0, h, h1, ih]

theorem values_foldl_absent (key : Bytes) (headers : List (Bytes × Bytes))
    (hk : ∀ nv ∈ headers, (canonicalMIMEHeaderKey nv.1).1 ≠ key) :
    ∀ m : MIMEHeader, MIMEHeader.values (headers.foldl
        (fun m nv => MIMEHeader.add m (canonicalMIMEHeaderKey nv.1).1 nv.2) m) key
      = MIMEHeader.values m key := by
  induction headers with
  | nil => intro m; rfl
  | cons nv rest ih =>
    intro m
    have h1 := hk nv (List.mem_cons_self _ _)
    rw [List.foldl_cons, ih (fun x hx => hk x (List.mem_cons_of_mem _ hx)), values_add]
    simp only [h1, if_false]

theorem ascii_http : ascii "HTTP/" = [72, 84, 84, 80, 47] := by decide

theorem digitsValue_single (c : Nat) :
    digitsValue [c] = if 48 ≤ c ∧ c ≤ 57 then some (c - 48) else none := by
  simp [digitsValue]

theorem version_bytes (proto : Bytes) (h : (ParseHTTPVersion proto).2.2 = true) :
    32 ∉ proto ∧ 10 ∉ proto := by
  unfold ParseHTTPVersion at h
  split_ifs at h with h1 h2 h3 h4 h5
  · subst h1; decide
  · subst h2; decide
  · simp only [ne_eq, not_not] at h3 h4 h5
    match proto, h4 with
    | [a, b, c, d, e, f, g, i], _ =>
      simp only [List.take, ascii_http, List.cons.injEq, and_true] at h3
      obtain ⟨ha, hb, hc, hd, he⟩ := h3
      simp only [List.get?, Option.some.injEq] at h5
      simp only [List.drop, List.take, digitsValue_single] at h
      have hf : 48 ≤ f ∧ f ≤ 57 := by
        by_contra hf
        simp [hf] at h
      have hi : 48 ≤ i ∧ i ≤ 57 := by
        by_contra hi
        simp [hf, hi] at h
      subst ha hb hc hd he h5
      simp only [List.mem_cons, List.mem_singleton, List.not_mem_nil, or_false]
      omega

theorem parseHttp_of_parts (raw line bf rest : Bytes) (i : Nat) (hdr : MIMEHeader)
    (h1 : ReadLine raw = (.ok line, bf)) (h2 : indexByte line 32 = some i)
    (h3 : ReadMIMEHeader bf = (.ok hdr, rest)) :
    parseHttp raw = .ok
      { Status := (line.drop (i + 1)).dropWhile (fun c => c == 32),
        StatusCode :=
          (Atoi (match indexByte ((line.drop (i + 1)).dropWhile (fun c => c == 32)) 32 with
            | some j => ((line.drop (i + 1)).dropWhile (fun c => c == 32)).take j
            | none => (line.drop (i + 1)).dropWhile (fun c => c == 32))).1,
        Proto := line.take i,
        ProtoMajor := (ParseHTTPVersion (line.take i)).1,
        ProtoMinor := (ParseHTTPVersion (line.take i)).2.1,
        Header := hdr,
        Body :=
          if chunked (MIMEHeader.values hdr (ascii "Transfer-Encoding")) then
            BodyReader.chunkedReader rest
          else BodyReader.plain rest,
        ContentLength := (ParseInt (MIMEHeader.Get hdr (ascii "Content-Length"))).1,
        TransferEncoding := MIMEHeader.values hdr (ascii "Transfer-Encoding") } := by
  rw [parseHttp, h1]
  simp only [h2, h3]

theorem Atoi_three_digits (c1 c2 c3 : Nat) (h1 : 48 ≤ c1 ∧ c1 ≤ 57) (h2 : 48 ≤ c2 ∧ c2 ≤ 57)
    (h3 : 48 ≤ c3 ∧ c3 ≤ 57) :
    Atoi [c1, c2, c3] = (((100 * (c1 - 48) + 10 * (c2 - 48) + (c3 - 48) : Nat) : Int), false) := by
  have a1 : ¬ c1 = 45 := by omega
  have a2 : ¬ c1 = 43 := by omega
  have hd : digitsValue [c1, c2, c3]
      = some (100 * (c1 - 48) + 10 * (c2 - 48) + (c3 - 48)) := by
    simp only [digitsValue, List.foldl_cons, List.foldl_nil, h1, h2, h3, and_self, if_true]
    simp only [List.cons_ne_nil, if_false, Option.some.injEq]
    omega
  have hsmall : ¬ (100 * (c1 - 48) + 10 * (c2 - 48) + (c3 - 48) ≥ 9223372036854775808) := by
    omega
  simp only [Atoi, ParseInt, List.head?_cons, Option.some.injEq, a1, a2, or_self, if_false,
    hd, hsmall, decide_False, Bool.false_eq_true]

/-- C9: HTTP reconstruction, literal case. For every response text made of a
status line PROTO SP CODE SP REASON CR LF, where PROTO is accepted by
ParseHTTPVersion, CODE is three ASCII digits and REASON holds no line feed,
then well-formed header lines none of which is a Transfer-Encoding header,
then an empty line, then a body, parseHttp succeeds; the response has Proto =
PROTO, StatusCode = the value of CODE, Status = CODE SP REASON, the header
lines as Header (each value filed under the canonical form of its name), no
transfer encoding, and a Body that is a plain reader over exactly the bytes
after the empty line, whatever Content-Length the header declares. -/
theorem parseHttp_literal (proto reason body : Bytes) (c1 c2 c3 : Nat)
    (headers : List (Bytes × Bytes))
    (hproto : (ParseHTTPVersion proto).2.2 = true)
    (h1 : 48 ≤ c1 ∧ c1 ≤ 57) (h2 : 48 ≤ c2 ∧ c2 ≤ 57) (h3 : 48 ≤ c3 ∧ c3 ≤ 57)
    (hreason : 10 ∉ reason)
    (hh : ∀ nv ∈ headers, headerLineOK nv)
    (hte : ∀ nv ∈ headers, (canonicalMIMEHeaderKey nv.1).1 ≠ ascii "Transfer-Encoding") :
    parseHttp (responseText proto [c1, c2, c3] reason headers body) = .ok
      { Status := [c1, c2, c3] ++ [32] ++ reason,
        StatusCode := ((100 * (c1 - 48) + 10 * (c2 - 48) + (c3 - 48) : Nat) : Int),
        Proto := proto,
        ProtoMajor := (ParseHTTPVersion proto).1,
        ProtoMinor := (ParseHTTPVersion proto).2.1,
        Header := headersOf headers,
        Body := BodyReader.plain body,
        ContentLength :=
          (ParseInt (MIMEHeader.Get (headersOf headers) (ascii "Content-Length"))).1,
        TransferEncoding := [] } := by
  obtain ⟨hp32, hp10⟩ := version_bytes proto hproto
  have hraw : responseText proto [c1, c2, c3] reason headers body
      = (proto ++ 32 :: (c1 :: c2 :: c3 :: 32 :: reason)) ++ [13, 10]
        ++ ((headers.map headerLine).flatten ++ [13, 10] ++ body) := by
    simp [responseText]
  have hlf : 10 ∉ proto ++ 32 :: (c1 :: c2 :: c3 :: 32 :: reason) := by
    simp only [List.mem_append, List.mem_cons]
    rintro (h | h | h | h | h | h | h)
    · exact hp10 h
    all_goals first | omega | exact hreason h
  have hline := ReadLine_crlf _ ((headers.map headerLine).flatten ++ [13, 10] ++ body) hlf
  have hidx := indexByte_append_of_not_mem 32 (c1 :: c2 :: c3 :: 32 :: reason) proto hp32
  have hmime := ReadMIMEHeader_block body headers hh
  have htake : (proto ++ 32 :: (c1 :: c2 :: c3 :: 32 :: reason)).take proto.length = proto :=
    List.take_left _ _
  have hdrop : (proto ++ 32 :: (c1 :: c2 :: c3 :: 32 :: reason)).drop (proto.length + 1)
      = c1 :: c2 :: c3 :: 32 :: reason := by
    have e : proto ++ 32 :: (c1 :: c2 :: c3 :: 32 :: reason)
        = (proto ++ [32]) ++ (c1 :: c2 :: c3 :: 32 :: reason) := by simp
    have l : (proto ++ [32]).length = proto.length + 1 := by simp
    rw [e, ← l]
    exact List.drop_left _ _
  have hc1 : ¬ ((c1 == 32) = true) := by
    simp only [beq_iff_eq]
    omega
  have hdw : (c1 :: c2 :: c3 :: 32 :: reason).dropWhile (fun c => c == 32)
      = c1 :: c2 :: c3 :: 32 :: reason := List.dropWhile_cons_of_neg hc1
  have hi3 : indexByte (c1 :: c2 :: c3 :: 32 :: reason) 32 = some 3 := by
    have := indexByte_append_of_not_mem 32 reason [c1, c2, c3] (by
      simp only [List.mem_cons, List.mem_singleton, List.not_mem_nil, or_false]
      omega)
    simpa using this
  have hte2 : MIMEHeader.values (headersOf headers) (ascii "Transfer-Encoding") = [] :=
    values_foldl_absent _ headers hte []
  rw [hraw, parseHttp_of_parts _ _ _ body proto.length (headersOf headers) hline hidx hmime]
  simp only [htake, hdrop, hdw, hi3, hte2, List.take, Atoi_three_digits c1 c2 c3 h1 h2 h3]
  rfl

/-- Witness of C9: the text
HTTP/1.1 200 OK CRLF Content-Type: text/plain CRLF CRLF hello. -/
theorem parseHttp_literal_witness :
    parseHttp (ascii "HTTP/1.1 200 OK\r\nContent-Type: text/plain\r\n\r\nhello") = .ok
      { Status := ascii "200 OK",
        StatusCode := 200,
        Proto := ascii "HTTP/1.1",
        ProtoMajor := 1,
        ProtoMinor := 1,
        Header := [(ascii "Content-Type", [ascii "text/plain"])],
        Body := BodyReader.plain (ascii "hello"),
        ContentLength := 0,
        TransferEncoding := [] } :=
  parseHttp_literal (ascii "HTTP/1.1") (ascii "OK") (ascii "hello") 50 48 48
    [(ascii "Content-Type", ascii "text/plain")] (by decide) (by decide) (by decide)
    (by decide) (by decide) (by decide) (by decide)

/-- C10: a malformed status code is not rejected by the code. On the texts
HTTP/1.1 20X OK CRLF CRLF, HTTP/1.1 20 OK CRLF CRLF and
HTTP/1.1 2000 OK CRLF CRLF, whose status-code tokens are not three ASCII
digits, parseHttp returns a response and no error: the malformed-status error
it stores in err is overwritten by the result of ReadMIMEHeader. The status
code of the response is 0 for 20X (the value Atoi gives with its error), 20
and 2000. -/
theorem parseHttp_malformed_status_accepted :
    parseHttp (ascii "HTTP/1.1 20X OK\r\n\r\n") = .ok
        { Status := ascii "20X OK", StatusCode := 0, Proto := ascii "HTTP/1.1",
          ProtoMajor := 1, ProtoMinor := 1, Header := [], Body := BodyReader.plain [],
          ContentLength := 0, TransferEncoding := [] }
      ∧ parseHttp (ascii "HTTP/1.1 20 OK\r\n\r\n") = .ok
        { Status := ascii "20 OK", StatusCode := 20, Proto := ascii "HTTP/1.1",
          ProtoMajor := 1, ProtoMinor := 1, Header := [], Body := BodyReader.plain [],
          ContentLength := 0, TransferEncoding := [] }
      ∧ parseHttp (ascii "HTTP/1.1 2000 OK\r\n\r\n") = .ok
        { Status := ascii "2000 OK", StatusCode := 2000, Proto := ascii "HTTP/1.1",
          ProtoMajor := 1, ProtoMinor := 1, Header := [], Body := BodyReader.plain [],
          ContentLength := 0, TransferEncoding := [] } := by
  refine ⟨?_, ?_, ?_⟩ <;> rfl

/-! ## Streams that end early, other record types -/

theorem readRecord_nil :
    readRecord [] = (.ok ⟨⟨0, 0, 0, 0, 0, 0⟩, []⟩, []) := rfl

theorem loop_nil_running (fuel : Nat) :
    ∀ response : Bytes, readResponse.loop fuel response [] = .running response [] := by
  induction fuel with
  | zero => intro response; rfl
  | succ fuel ih =>
    intro response
    rw [loop_ok_more fuel response [] [] ⟨⟨0, 0, 0, 0, 0, 0⟩, []⟩ readRecord_nil (by decide),
      ih]
    simp

theorem loop_err_panics (fuel : Nat) (response s rest : Bytes) (e : ReadErr)
    (h : readRecord s = (.error e, rest)) :
    readResponse.loop (fuel + 1) response s = .panicked response := by
  rw [loop_succ, h]

/-- C11: a read failure while draining is not reported by the code. On a
transport that ends at once, readResponse is still in its loop after any
number of turns (readRecord hands back an all-zero record without error, its
type is not END_REQUEST, and the loop goes on); on a transport cut inside the
content of a STDOUT record (header says five content bytes, one present),
readRecord fails, the error is only logged, and the next statement reads
r.Header of a nil record and panics. The function has no error result. -/
theorem readResponse_early_end :
    (∀ fuel, readResponse fuel [] = .running [] [])
      ∧ (∀ fuel, readResponse (fuel + 1) [1, 6, 0, 1, 0, 5, 0, 0, 97] = .panicked []) := by
  constructor
  · intro fuel
    exact loop_nil_running fuel []
  · intro fuel
    exact loop_err_panics fuel [] _ [] .ErrUnexpectedEOF rfl

theorem readRecord_short_body (v t i1 i2 c1 c2 p r : Nat) (rest : Bytes)
    (h : rest.length < c1 * 256 + c2 + p) :
    ∃ e, readRecord (v :: t :: i1 :: i2 :: c1 :: c2 :: p :: r :: rest) = (.error e, []) := by
  have h1 : ¬ (c1 * 256 + c2 + p ≤ rest.length) := by omega
  have e : readRecord (v :: t :: i1 :: i2 :: c1 :: c2 :: p :: r :: rest)
      = (match readFull (c1 * 256 + c2 + p) rest with
        | (.error e, s) => (.error e, s)
        | (.ok content, s) =>
          (.ok ⟨⟨v, t, i1 * 256 + i2, c1 * 256 + c2, p, r⟩,
            content.take (c1 * 256 + c2)⟩, s)) := rfl
  rw [e]
  by_cases hr : rest = []
  · have hf : readFull (c1 * 256 + c2 + p) rest = (.error .EOF, []) := by
      rw [readFull, if_neg h1, if_pos hr]
    exact ⟨.EOF, by rw [hf]⟩
  · have hf : readFull (c1 * 256 + c2 + p) rest = (.error .ErrUnexpectedEOF, []) := by
      rw [readFull, if_neg h1, if_neg hr]
    exact ⟨.ErrUnexpectedEOF, by rw [hf]⟩

/-- C12: short reads of the header are not errors in the code. On the empty
stream, and on a stream of three bytes, readRecord returns a record and no
error: the errors of the six binary.Read calls are dropped, the fields that
could not be read keep zero, and io.ReadFull of zero bytes succeeds. -/
theorem readRecord_short_header_accepted :
    readRecord [] = (.ok ⟨⟨0, 0, 0, 0, 0, 0⟩, []⟩, [])
      ∧ readRecord [1, 6, 0] = (.ok ⟨⟨1, 6, 0, 0, 0, 0⟩, []⟩, []) :=
  ⟨rfl, rfl⟩

/-- C13: content of other record types is accumulated by the code. On the
encodings of a STDERR record with content E, a STDOUT record with content ab
and an END_REQUEST record, readResponse returns Eab: the loop appends the
content of every record that is not END_REQUEST, whatever its type. -/
theorem readResponse_merges_stderr :
    readResponse 3
        (Record.toBytes ⟨⟨1, FCGI_STDERR, 1, 1, 0, 0⟩, [69]⟩
          ++ Record.toBytes ⟨⟨1, FCGI_STDOUT, 1, 2, 0, 0⟩, [97, 98]⟩
          ++ Record.toBytes ⟨⟨1, FCGI_END_REQUEST, 1, 0, 0, 0⟩, []⟩)
      = .returned [69, 97, 98] [] := by
  rfl

/-- C14: a malformed protocol version is not rejected by the code. On the text
FOO/9 200 OK CRLF CRLF, whose protocol token is no HTTP version
(ParseHTTPVersion refuses it), parseHttp returns a response and no error: the
malformed-version error it stores in err is overwritten by the result of
ReadMIMEHeader. -/
theorem parseHttp_malformed_version_accepted :
    (ParseHTTPVersion (ascii "FOO/9")).2.2 = false
      ∧ parseHttp (ascii "FOO/9 200 OK\r\n\r\n") = .ok
        { Status := ascii "200 OK", StatusCode := 200, Proto := ascii "FOO/9",
          ProtoMajor := 0, ProtoMinor := 0, Header := [], Body := BodyReader.plain [],
          ContentLength := 0, TransferEncoding := [] } :=
  ⟨rfl, rfl⟩

/-- C16: the BEGIN_REQUEST record. For every request identifier,
NewBeginRequestRecord returns the record with Version 1, type BEGIN_REQUEST
(which is 1), the Id of the request, ContentLength 8, PaddingLength 0,
Reserved 0 and the eight content bytes 0, 1, 0, 0, 0, 0, 0, 0. -/
theorem NewBeginRequestRecord_eq (reqId : Nat) :
    NewBeginRequestRecord reqId = ⟨⟨1, 1, reqId, 8, 0, 0⟩, [0, 1, 0, 0, 0, 0, 0, 0]⟩
      ∧ FCGI_BEGIN_REQUEST = 1 :=
  ⟨rfl, rfl⟩

/-! ## Names that are too long, and the records of the encoders -/

theorem pair_panics (reqId : Nat) (k v : Bytes) (h : 65535 - 8 < k.length) :
    EncodeContext.pair reqId k v = none := by
  have h1 : 8 + k.length + v.length > maxWrite := by
    simp only [maxWrite]
    omega
  have h2 : (maxWrite : Int) - 8 - (k.length : Int) < 0
      ∨ (maxWrite : Int) - 8 - (k.length : Int) > (v.length : Int) := by
    left
    simp only [maxWrite]
    omega
  simp only [EncodeContext.pair, h1, if_true, h2]

/-- C18: a name that is too long is not reported as an error by the code. For
the context with the single name of 65528 bytes (one more than 65535 - 8) and
an empty value, the loop of EncodeContext computes valMaxLength = -1 and
slices v[:valMaxLength]: the Go runtime panics; the function, whose only
result is a slice of records, returns nothing and reports no error. -/
theorem EncodeContext_long_name_panics :
    EncodeContext 1 [(List.replicate 65528 97, [])] = none := by
  have hl : 65535 - 8 < (List.replicate 65528 97).length := by
    rw [List.length_replicate]
    omega
  have h := pair_panics 1 (List.replicate 65528 97) [] hl
  rw [EncodeContext, h]

theorem chunks_length_le (fuel : Nat) :
    ∀ body : Bytes, ∀ c ∈ EncodeBody.chunks fuel body, c.length ≤ 65535 := by
  induction fuel with
  | zero => intro body c hc; simp [EncodeBody.chunks] at hc
  | succ fuel ih =>
    intro body c hc
    by_cases h0 : body.length > 0
    · simp only [EncodeBody.chunks, h0, if_true, List.mem_cons] at hc
      rcases hc with hc | hc
      · rw [hc, List.length_take]
        simp only [maxWrite]
        omega
      · exact ih _ c hc
    · simp [EncodeBody.chunks, h0] at hc

theorem NewRecord_producedFor (reqId : Nat) (t : FCGIRecordType) (content : Bytes)
    (h : content.length ≤ 65535) :
    (NewRecord reqId t content).producedFor reqId ∧ (NewRecord reqId t content).Header.RecType = t := by
  refine ⟨⟨h, ?_, rfl, rfl, rfl⟩, rfl⟩
  simp only [NewRecord]
  omega

theorem pair_producedFor (reqId : Nat) (k v : Bytes) (hk : k.length ≤ 65535 - 8) :
    ∃ r, EncodeContext.pair reqId k v = some r ∧ r.producedFor reqId
      ∧ r.Header.RecType = FCGI_PARAMS := by
  have s1 := sizeField_length_le k.length
  by_cases h : 8 + k.length + v.length ≤ 65535
  · have s2 := sizeField_length_le v.length
    refine ⟨_, pair_fits reqId k v h, NewRecord_producedFor reqId FCGI_PARAMS _ ?_⟩
    simp only [List.length_append]
    omega
  · have s2 := sizeField_length_le (65535 - 8 - k.length)
    refine ⟨_, pair_truncates reqId k v hk h, NewRecord_producedFor reqId FCGI_PARAMS _ ?_⟩
    simp only [List.length_append, List.length_take]
    omega

theorem EncodeContext_producedFor (reqId : Nat) (ctx : List (Bytes × Bytes)) :
    (∀ kv ∈ ctx, kv.1.length ≤ 65535 - 8) →
      ∃ rs, EncodeContext reqId ctx = some rs ∧ rs.length = ctx.length
        ∧ ∀ r ∈ rs, r.producedFor reqId ∧ r.Header.RecType = FCGI_PARAMS := by
  induction ctx with
  | nil => intro _; exact ⟨[], rfl, rfl, by simp⟩
  | cons kv rest ih =>
    intro h
    obtain ⟨k, v⟩ := kv
    obtain ⟨r, hr, hp⟩ := pair_producedFor reqId k v (h (k, v) (List.mem_cons_self _ _))
    obtain ⟨rs, hrs, hl, hall⟩ := ih (fun x hx => h x (List.mem_cons_of_mem _ hx))
    refine ⟨r :: rs, by simp only [EncodeContext, hr, hrs], by simp [hl], ?_⟩
    intro x hx
    rcases List.mem_cons.mp hx with e | e
    · rw [e]; exact hp
    · exact hall x e

/-- C19: record well-formedness. For every request identifier, the record of
NewBeginRequestRecord, every record of EncodeBody (any body) and every record
of EncodeContext (any context whose names have at most 65535 - 8 bytes, in
which case EncodeContext returns one record per pair) has at most 65535
content bytes, a ContentLength equal to the length of its Content, Version 1,
PaddingLength 0 and the Id of the request; the records of EncodeBody have
type STDIN and those of EncodeContext have type PARAMS. -/
theorem encoders_producedFor (reqId : Nat) :
    (NewBeginRequestRecord reqId).producedFor reqId
      ∧ (∀ body : Bytes, ∀ r ∈ EncodeBody reqId body,
          r.producedFor reqId ∧ r.Header.RecType = FCGI_STDIN)
      ∧ (∀ ctx : List (Bytes × Bytes), (∀ kv ∈ ctx, kv.1.length ≤ 65535 - 8) →
          ∃ rs, EncodeContext reqId ctx = some rs ∧ rs.length = ctx.length
            ∧ ∀ r ∈ rs, r.producedFor reqId ∧ r.Header.RecType = FCGI_PARAMS) := by
  refine ⟨?_, ?_, EncodeContext_producedFor reqId⟩
  · refine ⟨?_, rfl, rfl, rfl, rfl⟩
    show (8 : Nat) ≤ 65535
    omega
  · intro body r hr
    simp only [EncodeBody, List.mem_map] at hr
    obtain ⟨c, hc, rfl⟩ := hr
    exact NewRecord_producedFor reqId FCGI_STDIN c (chunks_length_le _ body c hc)

/-! ## The context of a request -/

theorem get_set_same (key value : Bytes) :
    ∀ c : Context, (c.set key value).get key = some value := by
  intro c
  induction c with
  | nil => simp [Context.set, Context.get]
  | cons e c ih =>
    obtain ⟨k, v⟩ := e
    by_cases h : k = key
    · simp [Context.set, Context.get, h]
    · simp [Context.set, Context.get, h, ih]

theorem get_set_other (key other value : Bytes) (h : other ≠ key) :
    ∀ c : Context, (c.set other value).get key = c.get key := by
  intro c
  induction c with
  | nil => simp [Context.set, Context.get, h]
  | cons e c ih =>
    obtain ⟨k, v⟩ := e
    by_cases h1 : k = other
    · subst h1
      simp [Context.set, Context.get, h]
    · by_cases h2 : k = key
      · subst h2
        simp [Context.set, Context.get, h1]
      · simp [Context.set, Context.get, h1, h2, ih]

theorem Join_eq_intercalate (sep : Bytes) :
    ∀ elems : List Bytes, Join elems sep = sep.intercalate elems := by
  intro elems
  induction elems with
  | nil => rfl
  | cons a rest ih =>
    cases rest with
    | nil => simp [Join, List.intercalate]
    | cons b rest =>
      have e : Join (a :: b :: rest) sep = a ++ sep ++ Join (b :: rest) sep := rfl
      rw [e, ih]
      simp [List.intercalate, List.intersperse]

theorem envKey_ascii (u : Bytes → Bytes) (n : Bytes) (h : ∀ b ∈ n, b < 128) :
    envKey u n
      = n.map (fun c => if 97 ≤ c ∧ c ≤ 122 then c - 32 else if c = 45 then 95 else c) := by
  have hall : n.all (fun c => decide (c < 128)) = true := by
    rw [List.all_eq_true]
    intro b hb
    simpa using h b hb
  simp only [envKey, ToUpper, hall, if_true, ReplaceAll, List.map_map]
  apply List.map_congr_left
  intro c _
  simp only [Function.comp]
  by_cases hc : 97 ≤ c ∧ c ≤ 122
  · have h1 : ¬ c - 32 = 45 := by omega
    have h2 : ¬ c = 45 := by omega
    simp [hc, h1]
  · simp [hc]

theorem header_get_other (u : Bytes → Bytes) (key : Bytes) (c : Context)
    (nv : Bytes × List Bytes)
    (h1 : envKey u nv.1 ≠ key) (h2 : ascii "HTTP_" ++ envKey u nv.1 ≠ key) :
    (RequestFromHttp.header u c nv).get key = c.get key := by
  unfold envKey at h1 h2
  simp only [RequestFromHttp.header]
  rw [get_set_other key _ _ h2, get_set_other key _ _ h1]

theorem foldl_header_get (u : Bytes → Bytes) (key : Bytes) (hs : List (Bytes × List Bytes)) :
    (∀ nv ∈ hs, envKey u nv.1 ≠ key ∧ ascii "HTTP_" ++ envKey u nv.1 ≠ key) →
      ∀ c : Context, (hs.foldl (RequestFromHttp.header u) c).get key = c.get key := by
  induction hs with
  | nil => intro _ c; rfl
  | cons nv rest ih =>
    intro h c
    have h1 := h nv (List.mem_cons_self _ _)
    rw [List.foldl_cons, ih (fun x hx => h x (List.mem_cons_of_mem _ hx)),
      header_get_other u key c nv h1.1 h1.2]

theorem http_key_ne (k : Bytes) : ascii "HTTP_" ++ k ≠ k := by
  intro h
  have := congrArg List.length h
  rw [List.length_append] at this
  have h5 : (ascii "HTTP_").length = 5 := by decide
  omega

theorem header_get_own (u : Bytes → Bytes) (c : Context) (nv : Bytes × List Bytes) :
    (RequestFromHttp.header u c nv).get (envKey u nv.1)
        = some ((ascii ", ").intercalate nv.2)
      ∧ (RequestFromHttp.header u c nv).get (ascii "HTTP_" ++ envKey u nv.1)
          = some ((ascii ", ").intercalate nv.2) := by
  have hne := http_key_ne (envKey u nv.1)
  rw [← Join_eq_intercalate]
  unfold envKey at hne
  unfold envKey
  constructor
  · simp only [RequestFromHttp.header]
    rw [get_set_other _ _ _ hne]
    exact get_set_same _ _ _
  · exact get_set_same _ _ _

theorem RequestFromHttp_eq (u : Bytes → Bytes) (r : HttpRequest) (body : Bytes)
    (hb : r.Body = some body) :
    RequestFromHttp u r = some
      { Id := 1,
        Context := r.Header.foldl (RequestFromHttp.header u)
          [(ascii "SERVER_SOFTWARE", ascii "oasis / fastcgi"), (ascii "QUERY_STRING", r.RawQuery),
            (ascii "REMOTE_ADDR", ascii "127.0.0.1"), (ascii "REQUEST_METHOD", r.Method),
            (ascii "REQUEST_URI", r.Path), (ascii "SERVER_ADDR", ascii "localhost"),
            (ascii "SERVER_PORT", ascii "8000"), (ascii "SERVER_NAME", ascii "localhost")],
        Body := body } := by
  simp only [RequestFromHttp, hb]
  rfl

theorem header_last_writer (u : Bytes → Bytes) (c : Context)
    (pre post : List (Bytes × List Bytes)) (n : Bytes) (values : List Bytes)
    (hpost : ∀ nv ∈ post, envKey u nv.1 ≠ envKey u n
      ∧ ascii "HTTP_" ++ envKey u nv.1 ≠ envKey u n) :
    ((pre ++ (n, values) :: post).foldl (RequestFromHttp.header u) c).get (envKey u n)
      = some ((ascii ", ").intercalate values) := by
  simp only [List.foldl_append, List.foldl_cons]
  rw [foldl_header_get u _ post hpost]
  exact (header_get_own u _ (n, values)).1

theorem http_ne_fixed (k key : Bytes) (hk : key ∈ fixedKeys) : ascii "HTTP_" ++ k ≠ key := by
  intro h
  have hh : (ascii "HTTP_" ++ k).head? = some 72 := rfl
  rw [h] at hh
  simp only [fixedKeys, List.mem_cons, List.mem_singleton, List.not_mem_nil, or_false] at hk
  rcases hk with e | e | e | e | e | e | e | e <;>
    · rw [e] at hh
      exact absurd hh (by decide)

theorem fixed_get (u : Bytes → Bytes) (r : HttpRequest) (key : Bytes) (hk : key ∈ fixedKeys)
    (c0 : Context) (hno : ∀ nv ∈ r.Header, envKey u nv.1 ≠ key) :
    (r.Header.foldl (RequestFromHttp.header u) c0).get key = c0.get key :=
  foldl_header_get u key r.Header (fun nv h => ⟨hno nv h, http_ne_fixed _ key hk⟩) c0

/-- Counterexample to C15 as stated: a request with the two headers A-B: 1 and
A_b: 2, whose names both fold to the key A_B. In either order of the range
loop the context, which holds one value per key, fails to map the keys of one
of the two headers to that header's values. (The names are ASCII, so the rune
branch of ToUpper is not taken and its parameter plays no part.) -/
theorem RequestFromHttp_header_collision :
    (∃ req, RequestFromHttp (fun s => s) ⟨ascii "GET", [], ascii "/",
          [(ascii "A-B", [ascii "1"]), (ascii "A_b", [ascii "2"])], some []⟩ = some req
        ∧ ¬ (∀ nv ∈ [(ascii "A-B", [ascii "1"]), (ascii "A_b", [ascii "2"])],
          req.Context.get (envKey (fun s => s) nv.1) = some ((ascii ", ").intercalate nv.2)
            ∧ req.Context.get (ascii "HTTP_" ++ envKey (fun s => s) nv.1)
              = some ((ascii ", ").intercalate nv.2)))
      ∧ (∃ req, RequestFromHttp (fun s => s) ⟨ascii "GET", [], ascii "/",
          [(ascii "A_b", [ascii "2"]), (ascii "A-B", [ascii "1"])], some []⟩ = some req
        ∧ ¬ (∀ nv ∈ [(ascii "A_b", [ascii "2"]), (ascii "A-B", [ascii "1"])],
          req.Context.get (envKey (fun s => s) nv.1) = some ((ascii ", ").intercalate nv.2)
            ∧ req.Context.get (ascii "HTTP_" ++ envKey (fun s => s) nv.1)
              = some ((ascii ", ").intercalate nv.2))) := by
  refine ⟨⟨_, rfl, ?_⟩, ⟨_, rfl, ?_⟩⟩ <;> decide

/-- C15 as amended: header folding. For every request whose body can be read
and every header (n, values) of it such that no header visited after it in the
range loop has one of its two keys equal to K or to HTTP_K (in particular
whenever no two header names of the request collide), the context of
RequestFromHttp maps both K and HTTP_K to the values joined by a comma and a
space, where K is strings.ToUpper(n) with every dash replaced by an
underscore; for a name of ASCII bytes K is n with the letters a to z made
upper case and every dash replaced by an underscore. The statement holds
whatever strings.ToUpper does to names that are not ASCII. -/
theorem RequestFromHttp_header_folded (upperRunes : Bytes → Bytes) (r : HttpRequest)
    (body : Bytes) (pre post : List (Bytes × List Bytes)) (n : Bytes) (values : List Bytes)
    (hb : r.Body = some body) (hh : r.Header = pre ++ (n, values) :: post)
    (hpost : ∀ nv ∈ post,
      (envKey upperRunes nv.1 ≠ envKey upperRunes n
          ∧ ascii "HTTP_" ++ envKey upperRunes nv.1 ≠ envKey upperRunes n)
        ∧ (envKey upperRunes nv.1 ≠ ascii "HTTP_" ++ envKey upperRunes n
          ∧ ascii "HTTP_" ++ envKey upperRunes nv.1 ≠ ascii "HTTP_" ++ envKey upperRunes n)) :
    ∃ req, RequestFromHttp upperRunes r = some req
      ∧ req.Context.get (envKey upperRunes n) = some ((ascii ", ").intercalate values)
      ∧ req.Context.get (ascii "HTTP_" ++ envKey upperRunes n)
          = some ((ascii ", ").intercalate values)
      ∧ ((∀ b ∈ n, b < 128) → envKey upperRunes n
          = n.map (fun c => if 97 ≤ c ∧ c ≤ 122 then c - 32 else if c = 45 then 95 else c)) := by
  refine ⟨_, RequestFromHttp_eq upperRunes r body hb, ?_, ?_, envKey_ascii upperRunes n⟩
  · rw [hh]
    exact header_last_writer upperRunes _ pre post n values (fun nv h => (hpost nv h).1)
  · simp only [hh, List.foldl_append, List.foldl_cons]
    rw [foldl_header_get upperRunes _ post (fun nv h => (hpost nv h).2)]
    exact (header_get_own upperRunes _ (n, values)).2

/-- Witness of C15 as amended: the headers Accept: a, b (two values) and
Content-Type: text/plain, seen for Accept. -/
theorem RequestFromHttp_header_folded_witness :
    ∃ req, RequestFromHttp (fun s => s) ⟨ascii "GET", [], ascii "/",
          [(ascii "Accept", [ascii "a", ascii "b"]), (ascii "Content-Type", [ascii "text/plain"])],
          some []⟩ = some req
      ∧ req.Context.get (ascii "ACCEPT") = some (ascii "a, b")
      ∧ req.Context.get (ascii "HTTP_ACCEPT") = some (ascii "a, b")
      ∧ ((∀ b ∈ ascii "Accept", b < 128) → envKey (fun s => s) (ascii "Accept")
          = (ascii "Accept").map
            (fun c => if 97 ≤ c ∧ c ≤ 122 then c - 32 else if c = 45 then 95 else c)) :=
  RequestFromHttp_header_folded (fun s => s) _ [] []
    [(ascii "Content-Type", [ascii "text/plain"])]
    (ascii "Accept") [ascii "a", ascii "b"] rfl rfl (by decide)

/-- Counterexample to C20 as stated: a request with method GET and the headers
Request-Method: EVIL and Server-Name: evil. The context of RequestFromHttp
has REQUEST_METHOD = EVIL and SERVER_NAME = evil, not GET and localhost: the
headers are folded in after the fixed keys are set and replace them. (The
names are ASCII, so the parameter of ToUpper plays no part.) -/
theorem RequestFromHttp_fixed_replaced :
    ∃ req, RequestFromHttp (fun s => s) ⟨ascii "GET", [], ascii "/",
          [(ascii "Request-Method", [ascii "EVIL"]), (ascii "Server-Name", [ascii "evil"])],
          some []⟩ = some req
      ∧ req.Context.get (ascii "REQUEST_METHOD") = some (ascii "EVIL")
      ∧ req.Context.get (ascii "SERVER_NAME") = some (ascii "evil")
      ∧ ¬ (req.Context.get (ascii "REQUEST_METHOD") = some (ascii "GET")
          ∧ req.Context.get (ascii "SERVER_NAME") = some (ascii "localhost")) := by
  refine ⟨_, rfl, ?_, ?_, ?_⟩ <;> decide

/-- C20 as amended: request-derived keys, key by key. For every request whose
body can be read, the context of RequestFromHttp has, for each of the eight
keys on its own, the request-derived value whenever no header name of the
request folds to that key (K, the name through strings.ToUpper with every dash
replaced by an underscore, is not that key): REQUEST_METHOD = r.Method,
QUERY_STRING = r.URL.RawQuery, REQUEST_URI = r.URL.Path, SERVER_SOFTWARE =
oasis / fastcgi, REMOTE_ADDR = 127.0.0.1, SERVER_ADDR = localhost,
SERVER_PORT = 8000, SERVER_NAME = localhost. And a header (n, values) whose
key K is written by no header visited after it holds K, with its values joined
by a comma and a space, also when K is one of the eight keys: the header
replaces the request-derived value. -/
theorem RequestFromHttp_fixed_keys (upperRunes : Bytes → Bytes) (r : HttpRequest)
    (body : Bytes) (hb : r.Body = some body) :
    ∃ req, RequestFromHttp upperRunes r = some req
      ∧ ((∀ nv ∈ r.Header, envKey upperRunes nv.1 ≠ ascii "REQUEST_METHOD") →
          req.Context.get (ascii "REQUEST_METHOD") = some r.Method)
      ∧ ((∀ nv ∈ r.Header, envKey upperRunes nv.1 ≠ ascii "QUERY_STRING") →
          req.Context.get (ascii "QUERY_STRING") = some r.RawQuery)
      ∧ ((∀ nv ∈ r.Header, envKey upperRunes nv.1 ≠ ascii "REQUEST_URI") →
          req.Context.get (ascii "REQUEST_URI") = some r.Path)
      ∧ ((∀ nv ∈ r.Header, envKey upperRunes nv.1 ≠ ascii "SERVER_SOFTWARE") →
          req.Context.get (ascii "SERVER_SOFTWARE") = some (ascii "oasis / fastcgi"))
      ∧ ((∀ nv ∈ r.Header, envKey upperRunes nv.1 ≠ ascii "REMOTE_ADDR") →
          req.Context.get (ascii "REMOTE_ADDR") = some (ascii "127.0.0.1"))
      ∧ ((∀ nv ∈ r.Header, envKey upperRunes nv.1 ≠ ascii "SERVER_ADDR") →
          req.Context.get (ascii "SERVER_ADDR") = some (ascii "localhost"))
      ∧ ((∀ nv ∈ r.Header, envKey upperRunes nv.1 ≠ ascii "SERVER_PORT") →
          req.Context.get (ascii "SERVER_PORT") = some (ascii "8000"))
      ∧ ((∀ nv ∈ r.Header, envKey upperRunes nv.1 ≠ ascii "SERVER_NAME") →
          req.Context.get (ascii "SERVER_NAME") = some (ascii "localhost"))
      ∧ (∀ (pre post : List (Bytes × List Bytes)) (n : Bytes) (values : List Bytes),
          r.Header = pre ++ (n, values) :: post →
          (∀ nv ∈ post, envKey upperRunes nv.1 ≠ envKey upperRunes n
            ∧ ascii "HTTP_" ++ envKey upperRunes nv.1 ≠ envKey upperRunes n) →
          req.Context.get (envKey upperRunes n) = some ((ascii ", ").intercalate values)) := by
  refine ⟨_, RequestFromHttp_eq upperRunes r body hb, ?_, ?_, ?_, ?_, ?_, ?_, ?_, ?_, ?_⟩
  · intro hno
    rw [fixed_get upperRunes r _ (by decide) _ hno]
    rfl
  · intro hno
    rw [fixed_get upperRunes r _ (by decide) _ hno]
    rfl
  · intro hno
    rw [fixed_get upperRunes r _ (by decide) _ hno]
    rfl
  · intro hno
    rw [fixed_get upperRunes r _ (by decide) _ hno]
    rfl
  · intro hno
    rw [fixed_get upperRunes r _ (by decide) _ hno]
    rfl
  · intro hno
    rw [fixed_get upperRunes r _ (by decide) _ hno]
    rfl
  · intro hno
    rw [fixed_get upperRunes r _ (by decide) _ hno]
    rfl
  · intro hno
    rw [fixed_get upperRunes r _ (by decide) _ hno]
    rfl
  · intro pre post n values hh hpost
    simp only []
    rw [hh]
    exact header_last_writer upperRunes _ pre post n values hpost

/-- Witness of C20 as amended: a POST request with the single header
Server-Name: evil. REQUEST_METHOD, QUERY_STRING and REQUEST_URI keep the
values of the request, the other fixed keys but SERVER_NAME keep theirs, and
SERVER_NAME holds the value of the header. -/
theorem RequestFromHttp_fixed_keys_witness :
    ∃ req, RequestFromHttp (fun s => s) ⟨ascii "POST", ascii "a=1", ascii "/index.php",
          [(ascii "Server-Name", [ascii "evil"])], some (ascii "x")⟩ = some req
      ∧ req.Context.get (ascii "REQUEST_METHOD") = some (ascii "POST")
      ∧ req.Context.get (ascii "QUERY_STRING") = some (ascii "a=1")
      ∧ req.Context.get (ascii "REQUEST_URI") = some (ascii "/index.php")
      ∧ req.Context.get (ascii "SERVER_SOFTWARE") = some (ascii "oasis / fastcgi")
      ∧ req.Context.get (ascii "REMOTE_ADDR") = some (ascii "127.0.0.1")
      ∧ req.Context.get (ascii "SERVER_ADDR") = some (ascii "localhost")
      ∧ req.Context.get (ascii "SERVER_PORT") = some (ascii "8000")
      ∧ req.Context.get (ascii "SERVER_NAME") = some (ascii "evil") := by
  obtain ⟨req, h, h1, h2, h3, h4, h5, h6, h7, _, h9⟩ :=
    RequestFromHttp_fixed_keys (fun s => s)
      ⟨ascii "POST", ascii "a=1", ascii "/index.php",
        [(ascii "Server-Name", [ascii "evil"])], some (ascii "x")⟩ (ascii "x") rfl
  exact ⟨req, h, h1 (by decide), h2 (by decide), h3 (by decide), h4 (by decide),
    h5 (by decide), h6 (by decide), h7 (by decide),
    h9 [] [] (ascii "Server-Name") [ascii "evil"] rfl (by decide)⟩

/-! ## The chunked body -/

theorem hexDigit_some (b : Nat) (h : hexDigit b ≠ none) :
    ∃ d, hexDigit b = some d ∧ d < 16 ∧ b ≠ 10 ∧ b ≠ 13 ∧ b ≠ 59 ∧ b ≠ 32 ∧ b ≠ 9 := by
  unfold hexDigit at h ⊢
  split_ifs at h ⊢ with h1 h2 h3
  · exact ⟨_, rfl, by omega, by omega, by omega, by omega, by omega, by omega⟩
  · exact ⟨_, rfl, by omega, by omega, by omega, by omega, by omega, by omega⟩
  · exact ⟨_, rfl, by omega, by omega, by omega, by omega, by omega, by omega⟩
  · exact absurd rfl h

theorem shift_or (n d : Nat) (hn : n < 1152921504606846976) (hd : d < 16) :
    (n * 16 % 18446744073709551616) ||| d = n * 16 + d := by
  have h1 : n * 16 % 18446744073709551616 = n * 16 := Nat.mod_eq_of_lt (by omega)
  have h2 := Nat.mul_add_lt_is_or (i := 4) (b := d) (by norm_num; exact hd) n
  norm_num at h2
  rw [h1, ← Nat.mul_comm 16 n, ← h2]

theorem parseHexUint_go (v : Bytes) :
    ∀ i n : Nat, (∀ b ∈ v, hexDigit b ≠ none) → i + v.length ≤ 16 → n < 16 ^ i →
      parseHexUint.go i n v
        = .ok (v.foldl (fun n b => n * 16 + (hexDigit b).getD 0) n) := by
  induction v with
  | nil => intro i n _ _ _; rfl
  | cons b v ih =>
    intro i n hv hi hn
    obtain ⟨d, hd, hd16, _⟩ := hexDigit_some b (hv b (List.mem_cons_self _ _))
    have hi15 : i ≤ 15 := by
      simp only [List.length_cons] at hi
      omega
    have hi16 : ¬ i = 16 := by omega
    have hpow : 16 ^ i ≤ 1152921504606846976 := by
      have := Nat.pow_le_pow_right (show 0 < 16 by norm_num) hi15
      norm_num at this
      exact this
    have hn2 : n * 16 + d < 16 ^ (i + 1) := by
      rw [Nat.pow_succ]
      have : (n + 1) * 16 ≤ 16 ^ i * 16 := Nat.mul_le_mul_right 16 hn
      omega
    have hlen : i + 1 + v.length ≤ 16 := by
      simp only [List.length_cons] at hi
      omega
    rw [parseHexUint.go]
    simp only [hd, hi16, if_false, shift_or n d (by omega) hd16]
    rw [ih (i + 1) (n * 16 + d) (fun x hx => hv x (List.mem_cons_of_mem _ hx)) hlen hn2]
    simp only [List.foldl_cons, hd, Option.getD_some]

theorem parseHexUint_line (line : Bytes) (hne : line ≠ []) (hlen : line.length ≤ 16)
    (hv : ∀ b ∈ line, hexDigit b ≠ none) :
    parseHexUint line = .ok (hexValue line) := by
  have h0 : ¬ line.length = 0 := fun e => hne (List.length_eq_zero.mp e)
  rw [parseHexUint, if_neg h0, parseHexUint_go line 0 0 hv (by omega) (by norm_num)]
  rfl

theorem cut_none_of_not_mem (c : Nat) :
    ∀ l : Bytes, c ∉ l → cut l c = none := by
  intro l
  induction l with
  | nil => intro _; rfl
  | cons b l ih =>
    intro h
    have hb : ¬ b = c := fun e => h (by simp [e])
    have hl : c ∉ l := fun e => h (List.mem_cons_of_mem _ e)
    simp [cut, hb, ih hl]

theorem hex_rdropWhile (line : Bytes) (hv : ∀ b ∈ line, hexDigit b ≠ none) :
    line.rdropWhile isASCIISpace = line := by
  rw [List.rdropWhile_eq_self_iff]
  intro hl
  obtain ⟨d, _, _, a1, a2, _, a3, a4⟩ := hexDigit_some _ (hv _ (List.getLast_mem hl))
  simp only [isASCIISpace, Bool.or_eq_true, beq_iff_eq]
  omega

theorem readChunkLine_hex (line rest : Bytes) (hlen : line.length ≤ 16)
    (hv : ∀ b ∈ line, hexDigit b ≠ none) :
    readChunkLine (line ++ [13, 10] ++ rest) = (.ok line, rest) := by
  have e : line ++ [13, 10] ++ rest = (line ++ [13]) ++ 10 :: rest := by simp
  have h10 : 10 ∉ line ++ [13] := by
    simp only [List.mem_append, List.mem_singleton]
    rintro (h | h)
    · obtain ⟨d, _, _, a1, _⟩ := hexDigit_some _ (hv _ h)
      exact a1 rfl
    · omega
  have h13 : 13 ∉ line := by
    intro h
    obtain ⟨d, _, _, _, a2, _⟩ := hexDigit_some _ (hv _ h)
    exact a2 rfl
  have hp : line ++ [13] ++ [10] = line ++ 13 :: [10] := by simp
  have hl : (line ++ 13 :: [10]).length = line.length + 2 := by simp
  have hidx := indexByte_append_of_not_mem 13 [10] line h13
  have hshort : ¬ (4096 < line.length + 2) := by omega
  have hsame : ¬ (line.length ≠ line.length + 2 - 2) := by omega
  have htake : (line ++ 13 :: [10]).take (line.length + 2 - 2) = line := by
    have : line.length + 2 - 2 = line.length := by omega
    rw [this]
    exact List.take_left _ _
  have hshort2 : ¬ (4096 ≤ line.length) := by omega
  rw [e, readChunkLine, cut_append_of_not_mem 10 rest _ h10]
  simp only [hp, hl, hshort, if_false, hidx, hsame, htake, hshort2]

theorem beginChunk_chunk (c : Bytes × Bytes) (rest : Bytes) (h : chunkOK c) :
    beginChunk 0 (chunkText c ++ rest) = .chunk c.2.length 0 (c.2 ++ [13, 10] ++ rest) := by
  obtain ⟨hne, hlen, hv, hval, hdata⟩ := h
  have e : chunkText c ++ rest = c.1 ++ [13, 10] ++ (c.2 ++ [13, 10] ++ rest) := by
    simp [chunkText]
  have h59 : 59 ∉ c.1 := by
    intro hm
    obtain ⟨d, _, _, _, _, a, _⟩ := hexDigit_some _ (hv _ hm)
    exact a rfl
  have hn0 : ¬ c.2.length = 0 := fun e => hdata (List.length_eq_zero.mp e)
  have hex : max ((0 : Int) + (c.1.length : Int) + 2 - (16 + 2 * (c.2.length : Int))) 0 = 0 := by
    omega
  rw [e, beginChunk, readChunkLine_hex c.1 _ hlen hv]
  simp only [hex_rdropWhile c.1 hv, removeChunkExtension, cut_none_of_not_mem 59 c.1 h59,
    parseHexUint_line c.1 hne hlen hv, hval, hn0, if_false, hex]
  simp

theorem beginChunk_last (excess : Int) (trailer : Bytes) :
    beginChunk excess ([48, 13, 10] ++ trailer) = .last trailer := by
  have hv : ∀ b ∈ ([48] : Bytes), hexDigit b ≠ none := by decide
  have := readChunkLine_hex [48] trailer (by decide) hv
  simp only [List.cons_append, List.nil_append] at this
  rw [beginChunk]
  simp only [List.cons_append, List.nil_append, this, hex_rdropWhile [48] hv,
    removeChunkExtension, cut_none_of_not_mem 59 [48] (by decide),
    parseHexUint_line [48] (by decide) (by decide) hv]
  rfl

theorem readAll_chunks (trailer : Bytes) (chunks : List (Bytes × Bytes)) :
    (∀ c ∈ chunks, chunkOK c) →
    ∀ (fuel : Nat) (data : Bytes), chunks.length < fuel →
      chunkedReader.readAll fuel data 0 (chunkedText chunks trailer)
        = (data ++ (chunks.map (fun c => c.2)).flatten, none) := by
  induction chunks with
  | nil =>
    intro _ fuel data hf
    obtain ⟨fuel, rfl⟩ : ∃ n, fuel = n + 1 := ⟨fuel - 1, by simp at hf; omega⟩
    have := beginChunk_last 0 trailer
    simp only [chunkedText, List.map_nil, List.flatten_nil, List.nil_append, List.append_nil]
    rw [chunkedReader.readAll, this]
  | cons c rest ih =>
    intro h fuel data hf
    obtain ⟨fuel, rfl⟩ : ∃ n, fuel = n + 1 := ⟨fuel - 1, by simp at hf; omega⟩
    have hc := h c (List.mem_cons_self _ _)
    have hf2 : rest.length < fuel := by
      simp only [List.length_cons] at hf
      omega
    have e : chunkedText (c :: rest) trailer = chunkText c ++ chunkedText rest trailer := by
      simp [chunkedText]
    have hb := beginChunk_chunk c (chunkedText rest trailer) hc
    have hlen : ¬ ((c.2 ++ [13, 10] ++ chunkedText rest trailer).length < c.2.length) := by
      simp only [List.length_append]
      omega
    have hdrop : (c.2 ++ [13, 10] ++ chunkedText rest trailer).drop c.2.length
        = 13 :: 10 :: chunkedText rest trailer := by
      rw [List.append_assoc, List.drop_left]
      rfl
    have htake : (c.2 ++ [13, 10] ++ chunkedText rest trailer).take c.2.length = c.2 := by
      rw [List.append_assoc, List.take_left]
    rw [e, chunkedReader.readAll, hb]
    simp only [hlen, if_false, hdrop, htake]
    rw [ih (fun x hx => h x (List.mem_cons_of_mem _ hx)) fuel _ hf2]
    simp only [List.map_cons, List.flatten_cons, List.append_assoc]

theorem length_le_chunkedText (trailer : Bytes) (chunks : List (Bytes × Bytes)) :
    chunks.length < (chunkedText chunks trailer).length + 1 := by
  induction chunks with
  | nil => simp
  | cons c rest ih =>
    have e : chunkedText (c :: rest) trailer = chunkText c ++ chunkedText rest trailer := by
      simp [chunkedText]
    rw [e]
    simp only [List.length_cons, List.length_append, chunkText, List.length_nil]
    omega

theorem parseHttp_text (proto reason body : Bytes) (c1 c2 c3 : Nat)
    (headers : List (Bytes × Bytes))
    (hproto : (ParseHTTPVersion proto).2.2 = true)
    (h1 : 48 ≤ c1 ∧ c1 ≤ 57) (h2 : 48 ≤ c2 ∧ c2 ≤ 57) (h3 : 48 ≤ c3 ∧ c3 ≤ 57)
    (hreason : 10 ∉ reason)
    (hh : ∀ nv ∈ headers, headerLineOK nv) :
    parseHttp (responseText proto [c1, c2, c3] reason headers body) = .ok
      { Status := [c1, c2, c3] ++ [32] ++ reason,
        StatusCode := ((100 * (c1 - 48) + 10 * (c2 - 48) + (c3 - 48) : Nat) : Int),
        Proto := proto,
        ProtoMajor := (ParseHTTPVersion proto).1,
        ProtoMinor := (ParseHTTPVersion proto).2.1,
        Header := headersOf headers,
        Body :=
          if chunked (MIMEHeader.values (headersOf headers) (ascii "Transfer-Encoding")) then
            BodyReader.chunkedReader body
          else BodyReader.plain body,
        ContentLength :=
          (ParseInt (MIMEHeader.Get (headersOf headers) (ascii "Content-Length"))).1,
        TransferEncoding :=
          MIMEHeader.values (headersOf headers) (ascii "Transfer-Encoding") } := by
  obtain ⟨hp32, hp10⟩ := version_bytes proto hproto
  have hraw : responseText proto [c1, c2, c3] reason headers body
      = (proto ++ 32 :: (c1 :: c2 :: c3 :: 32 :: reason)) ++ [13, 10]
        ++ ((headers.map headerLine).flatten ++ [13, 10] ++ body) := by
    simp [responseText]
  have hlf : 10 ∉ proto ++ 32 :: (c1 :: c2 :: c3 :: 32 :: reason) := by
    simp only [List.mem_append, List.mem_cons]
    rintro (h | h | h | h | h | h | h)
    · exact hp10 h
    all_goals first | omega | exact hreason h
  have hline := ReadLine_crlf _ ((headers.map headerLine).flatten ++ [13, 10] ++ body) hlf
  have hidx := indexByte_append_of_not_mem 32 (c1 :: c2 :: c3 :: 32 :: reason) proto hp32
  have hmime := ReadMIMEHeader_block body headers hh
  have htake : (proto ++ 32 :: (c1 :: c2 :: c3 :: 32 :: reason)).take proto.length = proto :=
    List.take_left _ _
  have hdrop : (proto ++ 32 :: (c1 :: c2 :: c3 :: 32 :: reason)).drop (proto.length + 1)
      = c1 :: c2 :: c3 :: 32 :: reason := by
    have e : proto ++ 32 :: (c1 :: c2 :: c3 :: 32 :: reason)
        = (proto ++ [32]) ++ (c1 :: c2 :: c3 :: 32 :: reason) := by simp
    have l : (proto ++ [32]).length = proto.length + 1 := by simp
    rw [e, ← l]
    exact List.drop_left _ _
  have hc1 : ¬ ((c1 == 32) = true) := by
    simp only [beq_iff_eq]
    omega
  have hdw : (c1 :: c2 :: c3 :: 32 :: reason).dropWhile (fun c => c == 32)
      = c1 :: c2 :: c3 :: 32 :: reason := List.dropWhile_cons_of_neg hc1
  have hi3 : indexByte (c1 :: c2 :: c3 :: 32 :: reason) 32 = some 3 := by
    have := indexByte_append_of_not_mem 32 reason [c1, c2, c3] (by
      simp only [List.mem_cons, List.mem_singleton, List.not_mem_nil, or_false]
      omega)
    simpa using this
  rw [hraw, parseHttp_of_parts _ _ _ body proto.length (headersOf headers) hline hidx hmime]
  simp only [htake, hdrop, hdw, hi3, List.take, Atoi_three_digits c1 c2 c3 h1 h2 h3]
  rfl

/-- C17: HTTP reconstruction, chunked case. For every response text with a
status line as in C9, well-formed header lines whose first Transfer-Encoding
value is exactly chunked, an empty line, and then a chunked body (well-formed
chunks of hexadecimal size line, CR LF, data, CR LF, then the chunk of size
zero and whatever follows it), parseHttp succeeds, its Body is the chunked
reader over the bytes after the empty line, and reading that Body to its end
gives exactly the data of the chunks, concatenated, and a clean end. -/
theorem parseHttp_chunked (proto reason trailer : Bytes) (c1 c2 c3 : Nat)
    (headers chunks : List (Bytes × Bytes))
    (hproto : (ParseHTTPVersion proto).2.2 = true)
    (h1 : 48 ≤ c1 ∧ c1 ≤ 57) (h2 : 48 ≤ c2 ∧ c2 ≤ 57) (h3 : 48 ≤ c3 ∧ c3 ≤ 57)
    (hreason : 10 ∉ reason)
    (hh : ∀ nv ∈ headers, headerLineOK nv)
    (hte : (MIMEHeader.values (headersOf headers) (ascii "Transfer-Encoding")).head?
      = some (ascii "chunked"))
    (hc : ∀ c ∈ chunks, chunkOK c) :
    ∃ resp, parseHttp (responseText proto [c1, c2, c3] reason headers
          (chunkedText chunks trailer)) = .ok resp
      ∧ resp.Body = BodyReader.chunkedReader (chunkedText chunks trailer)
      ∧ resp.Body.readAll = ((chunks.map (fun c => c.2)).flatten, none) := by
  have hch : chunked (MIMEHeader.values (headersOf headers) (ascii "Transfer-Encoding"))
      = true := by
    cases hv : MIMEHeader.values (headersOf headers) (ascii "Transfer-Encoding") with
    | nil => rw [hv] at hte; simp at hte
    | cons a rest =>
      rw [hv] at hte
      simp only [List.head?_cons, Option.some.injEq] at hte
      simp [chunked, hte]
  refine ⟨_, parseHttp_text proto reason _ c1 c2 c3 headers hproto h1 h2 h3 hreason hh, ?_, ?_⟩
  · simp only [hch, if_true]
  · simp only [hch, if_true, BodyReader.readAll]
    have := readAll_chunks trailer chunks hc _ [] (length_le_chunkedText trailer chunks)
    simpa using this

/-- Witness of C17: the text HTTP/1.1 200 OK CRLF Transfer-Encoding: chunked
CRLF CRLF 5 CRLF hello CRLF 0 CRLF CRLF, whose body reads hello. -/
theorem parseHttp_chunked_witness :
    ∃ resp, parseHttp (ascii
          "HTTP/1.1 200 OK\r\nTransfer-Encoding: chunked\r\n\r\n5\r\nhello\r\n0\r\n\r\n")
          = .ok resp
      ∧ resp.Body = BodyReader.chunkedReader (ascii "5\r\nhello\r\n0\r\n\r\n")
      ∧ resp.Body.readAll = (ascii "hello", none) :=
  parseHttp_chunked (ascii "HTTP/1.1") (ascii "OK") (ascii "\r\n") 50 48 48
    [(ascii "Transfer-Encoding", ascii "chunked")] [(ascii "5", ascii "hello")]
    (by decide) (by decide) (by decide) (by decide) (by decide) (by decide) (by decide)
    (by decide)

end Fastcgi
